import Mathlib

/-!
# Shallow embedding of the wiki content engine (`wiki/core.py`)

This file embeds the data model and operations of the wiki core:
the URL normalizer (`clean_url`), the wikilink resolver, the content
processor pipeline (split/meta/post/toc), the `History` store, `Page`
save, and the `Wiki` repository operations (`path`, `move`, `delete`,
`index_by`).  Python strings are modelled as `List Char` (wrapped in
`String` at the interfaces), Python ints as `Int`, Python float division
of integers by its exact result (`divStr`), dictionaries as
insertion-ordered association lists, the filesystem as an association list from path to file content,
and fallible code returns `Except`/`Option`.
-/

/-- The characters Python's `str.split()` / `\s` / `str.strip()` treat as
whitespace, identified by code point (ASCII part; exotic Unicode
whitespace is outside the inputs this program handles):
space 32, tab 9, newline 10, carriage return 13, vertical tab 11,
form feed 12. -/
def pyIsSpace (c : Char) : Bool :=
  c.toNat = 32 || c.toNat = 9 || c.toNat = 10 || c.toNat = 13 ||
  c.toNat = 11 || c.toNat = 12

/-- Model of Python `str.lower` on one character: ASCII uppercase letters
(code points 65-90) map to their lowercase counterparts; other characters
are returned unchanged. -/
def pyLowerC (c : Char) : Char :=
  if 65 ≤ c.toNat ∧ c.toNat ≤ 90 then Char.ofNat (c.toNat + 32) else c

/-- State-machine form of Python `re.sub('[ ]{2,}', ' ', url)`: collapse
every maximal run of spaces to a single space.  The flag records whether
we are inside a space run whose first space has already been emitted. -/
def collapseSp (inRun : Bool) : List Char → List Char
  | [] => []
  | c :: t =>
    if c = ' ' then
      (if inRun then collapseSp true t else ' ' :: collapseSp true t)
    else c :: collapseSp false t

/-- Python `re.sub('[ ]{2,}', ' ', url)`: collapse every maximal run of
two-or-more spaces to a single space (runs of length one stay a single
space, so collapsing every maximal run is the same function). -/
def collapseSpaces (l : List Char) : List Char := collapseSp false l

/-- Python `str.strip()`: drop leading and trailing whitespace. -/
def pyStrip (l : List Char) : List Char :=
  ((l.dropWhile (fun c => pyIsSpace c)).reverse.dropWhile (fun c => pyIsSpace c)).reverse

/-- Fuelled worker for `pyReplace`; the fuel only serves to make the
recursion structural (each step either consumes the matched pattern or one
character, so `s.length + 1` fuel always suffices). -/
def pyReplaceF : Nat → List Char → List Char → List Char → List Char
  | 0, s, _, _ => s
  | fuel + 1, s, pat, rep =>
    if pat.isPrefixOf s ∧ pat ≠ [] then
      rep ++ pyReplaceF fuel (s.drop pat.length) pat rep
    else
      match s with
      | [] => []
      | c :: t => c :: pyReplaceF fuel t pat rep

/-- Python `str.replace(pat, rep)` for a non-empty pattern: left-to-right,
non-overlapping replacement of every occurrence.  (For the empty pattern
this model returns the string unchanged; the program only uses non-empty
patterns.) -/
def pyReplace (s pat rep : List Char) : List Char :=
  pyReplaceF (s.length + 1) s pat rep

/--
`clean_url` (wiki/core.py lines 18-34): collapse multi-space runs, strip,
lowercase, spaces to underscores, then replace double backslashes and
single backslashes by forward slashes.
-/
def cleanUrlL (l : List Char) : List Char :=
  let s1 := pyStrip (collapseSpaces l)
  let s2 := (s1.map pyLowerC).map (fun c => if c = ' ' then '_' else c)
  let s3 := pyReplace s2 ['\\', '\\'] ['/']
  s3.map (fun c => if c = '\\' then '/' else c)

/-- `clean_url` on `String`s. -/
def clean_url (s : String) : String := ⟨cleanUrlL s.data⟩

-- ### The wikilink resolver (wiki/core.py lines 37-70)

/--
The tail `\s*]]` of the wikilink pattern: under Python backtracking the
greedy `\s*` can only expose the non-whitespace `]` by consuming the whole
whitespace run, so the match is the full drop followed by the literal
`]]`.  Returns the remaining text after the match.
-/
def closeBrackets (l : List Char) : Option (List Char) :=
  match l.dropWhile pyIsSpace with
  | ']' :: ']' :: rest => some rest
  | _ => none

/--
The lazy group `(.+?)` followed by `\s*]]`: grow the group one character
at a time (never across a newline, since `.` does not match `\n`),
checking after each character whether the close `\s*]]` matches.
Returns the matched group and the remaining text.
-/
def lazyScan (acc : List Char) : List Char → Option (List Char × List Char)
  | [] => none
  | c :: t =>
    if c = '\n' then none
    else
      match closeBrackets t with
      | some rest => some (acc ++ [c], rest)
      | none => lazyScan (acc ++ [c]) t

/--
The display-name part `\s*(.+?)\s*]]` after the pipe: the greedy `\s*`
first consumes the maximal whitespace run `m`, the lazy group is grown
from one character; on failure the whitespace run backtracks one
character at a time (exactly Python's backtracking order).
-/
def pipeTailGo (l : List Char) : Nat → Option (List Char × List Char)
  | 0 => lazyScan [] l
  | m + 1 =>
    match lazyScan [] (l.drop (m + 1)) with
    | some r => some r
    | none => pipeTailGo l m

/-- `\s*(.+?)\s*]]` after the `[|]`. -/
def pipeTail (l : List Char) : Option (List Char × List Char) :=
  pipeTailGo l (l.takeWhile pyIsSpace).length

/--
The pattern tail `\s*([|]\s*(.+?)\s*)?]]` after the target group: drop the
whitespace run (only the full drop can expose the non-whitespace `|` or
`]`), then either the optional display group introduced by `[|]`, or the
closing `]]` directly.  Returns the optional display group and the
remaining text.
-/
def matchTail (l : List Char) : Option (Option (List Char) × List Char) :=
  match l.dropWhile pyIsSpace with
  | '|' :: t =>
    match pipeTail t with
    | some (g, rest) => some (some g, rest)
    | none => none
  | ']' :: ']' :: rest => some (none, rest)
  | _ => none

/--
The lazy target group `[^<].+?` followed by the pattern tail: the
accumulator already holds the first character (which must not be `<`);
grow by one character at a time (`.` does not match `\n`), trying the
tail after each.  Returns the target group, the optional display group
and the remaining text.
-/
def g2scan (acc : List Char) : List Char → Option (List Char × Option (List Char) × List Char)
  | [] => none
  | c :: t =>
    if c = '\n' then none
    else
      match matchTail t with
      | some (d, rest) => some (acc ++ [c], d, rest)
      | none => g2scan (acc ++ [c]) t

/-- Match `([^<].+?)\s*([|]\s*(.+?)\s*)?]]` at the start of `rest`
(the part after the literal `[[`). -/
def matchAfterBrackets (rest : List Char) : Option (List Char × Option (List Char) × List Char) :=
  match rest with
  | [] => none
  | c0 :: t => if c0 = '<' then none else g2scan [c0] t

/-- One wikilink match: the target group and the optional display group. -/
structure WikiMatch where
  target : List Char
  display : Option (List Char)
deriving Repr, DecidableEq

/-- The negative lookbehind `(?<!\<code\>)`: the six characters before the
match, newest first. -/
def codeRevL : List Char := ['>', 'e', 'd', 'o', 'c', '<']

/--
Try the full wikilink regex
`((?<!\<code\>)\[\[([^<].+?) \s*([|] \s* (.+?) \s*)?]])` (re.X, re.U)
at one position: `prevRev` holds the already-scanned text reversed (for
the lookbehind), `rest` the text from this position on.
-/
def tryMatchAt (prevRev rest : List Char) : Option (WikiMatch × List Char) :=
  match rest with
  | '[' :: '[' :: t =>
    if prevRev.take 6 = codeRevL then none
    else
      match matchAfterBrackets t with
      | some (tgt, d, after) => some (⟨tgt, d⟩, after)
      | none => none
  | _ => none

/--
Leftmost match of the wikilink regex: scan position by position; on a
match return the consumed prefix (in order), the match groups, and the
text after the match.
-/
def findFirst : List Char → List Char → Option (List Char × WikiMatch × List Char)
  | _, [] => none
  | prevRev, c :: t =>
    match tryMatchAt prevRev (c :: t) with
    | some (m, after) => some (prevRev.reverse, m, after)
    | none => findFirst (c :: prevRev) t

/-- `re.findall`: all non-overlapping matches, scanning left to right and
continuing after each match (the fuel is only for structural recursion;
`length + 1` always suffices since every match consumes characters). -/
def findAllAux : Nat → List Char → List Char → List WikiMatch
  | 0, _, _ => []
  | fuel + 1, prevRev, rest =>
    match findFirst prevRev rest with
    | none => []
    | some (_, m, after) =>
      let consumed := rest.take (rest.length - after.length)
      m :: findAllAux fuel (consumed.reverse ++ prevRev) after

/-- All matches of the wikilink regex in a text. -/
def wikiFindAll (text : List Char) : List WikiMatch :=
  findAllAux (text.length + 1) [] text

/--
The replacement anchor built in the loop body of `wikilink`:
`"<a href='{0}'>{1}</a>".format(url_formatter('wiki.display', url), title)`
with `url = clean_url(target)` and `title` the display group if non-empty,
else the raw target.
-/
def mkAnchor (fmt : String → String → String) (m : WikiMatch) : List Char :=
  let url := cleanUrlL m.target
  let title := match m.display with
    | some d => if d = [] then m.target else d
    | none => m.target
  ("<a href='").data ++ (fmt "wiki.display" (⟨url⟩ : String)).data ++
    ("'>").data ++ title ++ ("</a>").data

/-- `re.sub(link_regex, repl, text, count=1)`: replace the leftmost match
of the wikilink regex in `text` by `repl` (the replacement is inserted
literally; the anchors this program builds contain no backslash escapes,
so Python's template expansion is the identity on them). -/
def wikiSubFirst (text repl : List Char) : List Char :=
  match findFirst [] text with
  | none => text
  | some (pre, _, after) => pre ++ repl ++ after

/--
`wikilink` (wiki/core.py lines 37-70): find all matches in the original
text, then for each match in order substitute the leftmost match of the
current text by the anchor built from that original match.
`fmt` models the injected `url_formatter` capability (default: the web
layer's `url_for`), called as `fmt "wiki.display" url`.
-/
def wikilink (text : String) (fmt : String → String → String) : String :=
  let ms := wikiFindAll text.data
  ⟨ms.foldl (fun t m => wikiSubFirst t (mkAnchor fmt m)) text.data⟩

/-- A concrete URL formatter used in the concrete evaluations below,
standing in for the web layer's route-to-URL builder. -/
def fmtDemo : String → String → String := fun _ u => "/" ++ u

-- ### The content processor (wiki/core.py lines 73-244)

deriving instance DecidableEq for Except

/-- The Python exceptions this code can raise, by kind. -/
inductive PyErr where
  | valueError
  | keyError
  | indexError
  | zeroDivisionError
  | jsonError
  | fileNotFoundError
  | attributeError
  | runtimeError (msg : String)
deriving Repr, DecidableEq

/-- A value stored in the renderer's metadata mapping `md.Meta`: the meta
extension stores a list of value lines per key, but `process_meta`
overwrites the three reserved keys with plain strings. -/
inductive MetaVal where
  | lines (ls : List String)
  | str (s : String)
deriving Repr, DecidableEq

/-- Interleave a newline between adjacent characters: Python
`'\n'.join(s)` on a string `s` iterates over its characters. -/
def interleaveNL : List Char → List Char
  | [] => []
  | [c] => [c]
  | c :: t => c :: '\n' :: interleaveNL t

/-- Python `'\n'.join(v)` for a `md.Meta` value: over a list of lines it
joins the lines; over a plain string it interleaves newlines between the
characters. -/
def joinNL : MetaVal → String
  | .lines ls => String.intercalate "\n" ls
  | .str s => ⟨interleaveNL s.data⟩

/-- Python dict lookup on an insertion-ordered association list. -/
def dictGet {β : Type} (l : List (String × β)) (k : String) : Option β :=
  match l with
  | [] => none
  | (k2, v) :: t => if k2 = k then some v else dictGet t k

/-- Python dict assignment: overwrite in place if the key exists, else
append (insertion order preserved). -/
def dictSet {β : Type} (l : List (String × β)) (k : String) (v : β) : List (String × β) :=
  match l with
  | [] => [(k, v)]
  | (k2, v2) :: t => if k2 = k then (k2, v) :: t else (k2, v2) :: dictSet t k v

/-- Python `str.split(sep)` for a one-character separator: splits at every
occurrence, keeping empty parts (`''.split('\n') == ['']`). -/
def pySplitChar (sep : Char) : List Char → List (List Char)
  | [] => [[]]
  | c :: t =>
    if c = sep then [] :: pySplitChar sep t
    else
      match pySplitChar sep t with
      | [] => [[c]]
      | h :: r => (c :: h) :: r

/-- Worker for Python `str.split()`: split on whitespace runs, dropping
empty parts; `cur` holds the current word reversed. -/
def pySplitWsGo (cur : List Char) : List Char → List (List Char)
  | [] => if cur = [] then [] else [cur.reverse]
  | c :: t =>
    if pyIsSpace c then
      (if cur = [] then pySplitWsGo [] t else cur.reverse :: pySplitWsGo [] t)
    else pySplitWsGo (c :: cur) t

/-- Python `str.split()` (no argument): split on whitespace runs, dropping
empty parts. -/
def pySplitWs (l : List Char) : List (List Char) := pySplitWsGo [] l

/-- Python `line.split(':', 1)[0]`: the characters before the first colon
(the whole line if it has no colon). -/
def splitColon1Key : List Char → List Char
  | [] => []
  | c :: t => if c = ':' then [] else c :: splitColon1Key t

/-- Parse a non-empty all-digit string to a natural number. -/
def parseDigits (l : List Char) : Option Nat :=
  match l with
  | [] => none
  | _ =>
    l.foldl
      (fun acc c =>
        match acc with
        | none => none
        | some n => if c.isDigit then some (n * 10 + (c.toNat - 48)) else none)
      (some 0)

/-- Model of Python `int(s)` on the whitespace-free tokens produced by
`str.split()`: an optional sign followed by at least one digit; anything
else raises `ValueError` (modelled as `none`). -/
def pyInt? (l : List Char) : Option Int :=
  match l with
  | '-' :: t => (parseDigits t).map (fun n => -(n : Int))
  | '+' :: t => (parseDigits t).map (fun n => (n : Int))
  | _ => (parseDigits l).map (fun n => (n : Int))

/-- Decimal digits of a natural number (the fuel makes the recursion
structural; `n + 1` always suffices). -/
def natDigitsGo : Nat → Nat → List Char
  | 0, _ => []
  | fuel + 1, n =>
    if n < 10 then [Char.ofNat (48 + n)]
    else natDigitsGo fuel (n / 10) ++ [Char.ofNat (48 + n % 10)]

/-- Python `str(n)` for a natural number. -/
def natStr (n : Nat) : String := ⟨natDigitsGo (n + 1) n⟩

/-- Python `str(i)` for an integer. -/
def intStr (i : Int) : String := if i < 0 then "-" ++ natStr i.natAbs else natStr i.natAbs

/-- Model of Python `str(a / b)` where `a / b` is true (float) division of
integers: faithful to Python exactly when the quotient is an integer
(`str(10 / 2) == '5.0'`); a non-integral quotient is rendered as an exact
fraction, whereas Python would print a decimal float expansion — the
theorems below only ever evaluate this on integral quotients. -/
def divStr (a b : Int) : String :=
  if a % b = 0 then intStr (a / b) ++ ".0"
  else "(" ++ intStr a ++ "/" ++ intStr b ++ ")"

/-- Python `str.lower()`. -/
def pyLowerS (s : String) : String := ⟨s.data.map pyLowerC⟩

/--
One line of the first loop of `process_meta` (wiki/core.py lines 142-150):
`key = line.split(':', 1)[0]; rate = line.split()`; a reserved key reads
`int(rate[1])` (raising `IndexError` when the line has fewer than two
whitespace-separated tokens and `ValueError` when the token is not an
integer); `timesrated` is stored incremented by one.  The accumulator is
`(rate_Num, times_rated, rated)`.
-/
def metaScanLine (acc : Int × Int × Int) (line : List Char) :
    Except PyErr (Int × Int × Int) :=
  let key := splitColon1Key line
  let rate := pySplitWs line
  if key = ("total").data then
    match rate.get? 1 with
    | none => .error .indexError
    | some tok =>
      match pyInt? tok with
      | none => .error .valueError
      | some n => .ok (n, acc.2.1, acc.2.2)
  else if key = ("timesrated").data then
    match rate.get? 1 with
    | none => .error .indexError
    | some tok =>
      match pyInt? tok with
      | none => .error .valueError
      | some n => .ok (acc.1, n + 1, acc.2.2)
  else if key = ("rating").data then
    match rate.get? 1 with
    | none => .error .indexError
    | some tok =>
      match pyInt? tok with
      | none => .error .valueError
      | some n => .ok (acc.1, acc.2.1, n)
  else .ok acc

/--
One line of the second loop of `process_meta` (wiki/core.py lines
155-167): write the updated `total` / `timesrated` / `rating` strings into
the renderer's metadata mapping under the lowercased key, then copy
`'\n'.join(md.Meta[key.lower()])` into the processor's ordered metadata
mapping (raising `KeyError` when the key is absent from `md.Meta`).
The accumulator is `(md.Meta, self.meta)`.
-/
def metaWriteLine (total timesRated : Int) (ratedS : String)
    (acc : List (String × MetaVal) × List (String × String)) (line : List Char) :
    Except PyErr (List (String × MetaVal) × List (String × String)) :=
  let key := splitColon1Key line
  let keyL : String := pyLowerS ⟨key⟩
  let mdMeta1 :=
    if key = ("total").data then
      dictSet acc.1 keyL (.str (pyLowerS (intStr total)))
    else if key = ("timesrated").data then
      dictSet acc.1 keyL (.str (pyLowerS (intStr timesRated)))
    else if key = ("rating").data then
      dictSet acc.1 keyL (.str (pyLowerS ratedS))
    else acc.1
  match dictGet mdMeta1 keyL with
  | none => .error .keyError
  | some v => .ok (mdMeta1, dictSet acc.2 keyL (joinNL v))

/--
`Processor.process_meta` (wiki/core.py lines 127-167): scan the raw
metadata lines for the reserved rating keys (`total` / `timesrated` /
`rating`, defaults 0 / 1 / 0, `timesrated` incremented when present),
compute `total = rated + rate_Num` and the new average
`rated = str(total / times_rated)` (float division; `ZeroDivisionError`
when `times_rated` is zero), then write the updated values back into the
renderer's metadata `mdMeta0` and build the processor's ordered metadata
mapping.
-/
def process_meta (metaRaw : String) (mdMeta0 : List (String × MetaVal)) :
    Except PyErr (List (String × MetaVal) × List (String × String)) := do
  let metaField := pySplitChar '\n' metaRaw.data
  let scanned ← metaField.foldlM metaScanLine ((0 : Int), (1 : Int), (0 : Int))
  let total := scanned.2.2 + scanned.1
  if scanned.2.1 = 0 then .error .zeroDivisionError
  else
    let ratedS := divStr total scanned.2.1
    metaField.foldlM (metaWriteLine total scanned.2.1 ratedS) (mdMeta0, [])

/-- First-occurrence splitter: `splitOnceL pat s = some (a, b)` exactly
when `pat` occurs in `s`, splitting at the first occurrence. -/
def splitOnceL (pat : List Char) : List Char → Option (List Char × List Char)
  | [] => none
  | c :: t =>
    if pat.isPrefixOf (c :: t) then some ([], (c :: t).drop pat.length)
    else (splitOnceL pat t).map (fun p => (c :: p.1, p.2))

/--
`Processor.split_raw` (wiki/core.py lines 121-125):
`self.meta_raw, self.markdown = self.pre.split('\n\n', 1)` — split the
pre-processed source at the first blank line (`"\n\n"`); unpacking the
one-element list raises `ValueError` (modelled as `none`) when no
separator exists.
-/
def split_raw (pre : String) : Option (String × String) :=
  (splitOnceL ['\n', '\n'] pre.data).map (fun p => (⟨p.1⟩, ⟨p.2⟩))

/-- Fuelled worker for `find_tags`: occurrence positions scanning left to
right, continuing past each match (non-overlapping, as `re.finditer`). -/
def findTagsF : Nat → List Char → Nat → List Char → List Nat
  | 0, _, _, _ => []
  | fuel + 1, pat, i, s =>
    match s with
    | [] => []
    | c :: t =>
      if pat.isPrefixOf (c :: t) ∧ pat ≠ [] then
        i :: findTagsF fuel pat (i + pat.length) ((c :: t).drop pat.length)
      else findTagsF fuel pat (i + 1) t

/-- `Processor.find_tags` (wiki/core.py lines 220-228): the start indices
of all (non-overlapping) occurrences of a literal substring. -/
def find_tags (pat text : List Char) : List Nat := findTagsF (text.length + 1) pat 0 text

/-- Python `text.count(pat)`: number of non-overlapping occurrences. -/
def pyCount (pat text : List Char) : Nat := (find_tags pat text).length

/-- Python slicing `l[a:b]` for non-negative bounds. -/
def pySlice (l : List Char) (a b : Nat) : List Char := (l.take b).drop a

/--
`Processor.generate_contents_table` (wiki/core.py lines 178-218): when the
final HTML contains a `<h1>` heading, build a table-of-contents block from
the heading texts (anchor names replace spaces by underscores; the
lowercasing on the line before is computed and immediately overwritten by
the source, so it has no effect), insert `<a name=...>` anchors before
each heading in reverse order, and prepend the table.  Reading
`header_close_loc[i]` raises `IndexError` when a `<h1>` has no matching
`</h1>`.
-/
def generate_contents_table (final : List Char) : Except PyErr (List Char) :=
  if pyCount ("<h1>").data final = 0 then .ok final
  else
    let opens := find_tags ("<h1>").data final
    let closes := find_tags ("</h1>").data final
    if closes.length < opens.length then .error .indexError
    else
      let tableHead :=
        ("<div class=\"row\"><div class=\"span2\"><h3>Contents</h3><ul class='nav nav-tabs nav-stacked'>").data
      let entries :=
        (List.range opens.length).foldl
          (fun acc i =>
            let header := pySlice final (opens.getD i 0 + 4) (closes.getD i 0)
            let headerF := header.map (fun c => if c = ' ' then '_' else c)
            acc ++ ("<li><a href=\"#").data ++ headerF ++ ("\">").data ++
              header ++ ("</a></li>").data)
          []
      let tableHtml := tableHead ++ entries ++ ("</ul><br></div></div>").data
      let final2 :=
        (List.range opens.length).reverse.foldl
          (fun cur i =>
            let header := pySlice cur (opens.getD i 0 + 4) (closes.getD i 0)
            let headerF := header.map (fun c => if c = ' ' then '_' else c)
            (cur.take (opens.getD i 0)) ++ ("<a name=\"").data ++ headerF ++
              ("\"></a>").data ++ (cur.drop (opens.getD i 0)))
          final
      .ok (tableHtml ++ final2)

/-- The external collaborators of the processor, injected as capabilities:
the markdown renderer (`md.convert`), the renderer's meta extension
(`md.Meta` after `convert`), and the web layer's URL formatter
(`url_for`). -/
structure RenderEnv where
  mdConvert : String → String
  mdMetaOf : String → List (String × MetaVal)
  urlFormatter : String → String → String

/--
`Processor.process` (wiki/core.py lines 230-244) for the default processor
configuration (no preprocessors, `wikilink` as the only postprocessor):
pre-process (identity) → render (external `mdConvert`) → `split_raw`
(`ValueError` when the source has no blank line) → `process_meta` →
post-process (`wikilink`) → `generate_contents_table`.  Returns
`(final html, markdown body, ordered metadata)`.
-/
def processModel (env : RenderEnv) (text : String) :
    Except PyErr (String × String × List (String × String)) := do
  let pre := text
  let html := env.mdConvert pre
  let mdMeta0 := env.mdMetaOf pre
  match split_raw pre with
  | none => .error .valueError
  | some (metaRaw, mdBody) => do
    let r ← process_meta metaRaw mdMeta0
    let final := wikilink html env.urlFormatter
    let final2 ← generate_contents_table final.data
    .ok (⟨final2⟩, mdBody, r.2)

/-- Whether a character may appear in a metadata key recognized by the
renderer's meta extension. -/
def isMetaKeyChar (c : Char) : Bool := c.isAlphanum || c = '_' || c = '-'

/-- Worker for `mdMetaParse`. -/
def mdMetaParseGo : List (List Char) → List (String × MetaVal)
  | [] => []
  | line :: rest =>
    let key := splitColon1Key line
    if key ≠ [] ∧ key.all isMetaKeyChar ∧ key.length < line.length then
      let value := (line.drop (key.length + 1)).dropWhile pyIsSpace
      (pyLowerS ⟨key⟩, MetaVal.lines [⟨value⟩]) :: mdMetaParseGo rest
    else []

/-- Model of the external markdown meta extension at its interface, for
the simple headers this program exercises: leading `key: value` lines
(keys of word characters only, lowercased, one value line each, stopping
at the first non-matching line); continuation lines and duplicate keys are
outside the modelled interface. -/
def mdMetaParse (text : String) : List (String × MetaVal) :=
  mdMetaParseGo (pySplitChar '\n' text.data)

/-- A concrete render environment for the concrete evaluations below:
identity renderer, the modelled meta extension, and `fmtDemo` as the
injected URL formatter. -/
def envDemo : RenderEnv :=
  { mdConvert := id, mdMetaOf := mdMetaParse, urlFormatter := fmtDemo }

-- ### The History store (wiki/core.py lines 350-390)

/-- One history entry: `{user, formatted-date, version}` where `version`
is the full body snapshot. -/
structure HistEntry where
  user : String
  formattedDate : String
  version : String
deriving Repr, DecidableEq

/-- Generic Python dict lookup on an insertion-ordered association list
(keys of any decidable type; the `History` entries are keyed by `float`
timestamps, modelled as `ℚ`). -/
def dictGetQ (l : List (ℚ × HistEntry)) (k : ℚ) : Option HistEntry :=
  match l with
  | [] => none
  | (k2, v) :: t => if k2 = k then some v else dictGetQ t k

/-- Python dict assignment for the timestamp-keyed entry map. -/
def dictSetQ (l : List (ℚ × HistEntry)) (k : ℚ) (v : HistEntry) : List (ℚ × HistEntry) :=
  match l with
  | [] => [(k, v)]
  | (k2, v2) :: t => if k2 = k then (k2, v) :: t else (k2, v2) :: dictSetQ t k v

/-- Insert into a descending-sorted list. -/
def insertDesc (x : ℚ) : List ℚ → List ℚ
  | [] => [x]
  | y :: t => if y < x then x :: y :: t else y :: insertDesc x t

/-- Python `sorted(keys, reverse=True)`: the descending sort of the
timestamp keys. -/
def sortDesc : List ℚ → List ℚ
  | [] => []
  | x :: t => insertDesc x (sortDesc t)

/-- The in-memory `History` object: `entries` is the timestamp-keyed
entry map loaded from the backing file, `entryKeys` the keys sorted
descending — computed in `__init__` only. -/
structure History where
  url : String
  path : String
  entries : List (ℚ × HistEntry)
  entryKeys : List ℚ
deriving Repr, DecidableEq

/-- `History.__init__` (wiki/core.py lines 354-365) after the backing
file has been read and parsed into `initialEntries`: store the entries
and set `entryKeys` to the keys sorted descending (newest first). -/
def historyLoad (url path : String) (initialEntries : List (ℚ × HistEntry)) : History :=
  { url := url, path := path, entries := initialEntries,
    entryKeys := sortDesc (initialEntries.map Prod.fst) }

/-- `History.save` (wiki/core.py lines 375-390), in-memory part: add the
new entry under the current timestamp `now` (the formatted date string
`dateS` models the second `datetime.now()` call).  `entryKeys` is not
recomputed. -/
def historySave (h : History) (now : ℚ) (user version dateS : String) : History :=
  { h with entries := dictSetQ h.entries now ⟨user, dateS, version⟩ }

/-- Python `str` of the float timestamp used as a JSON key (exact on
integral values; non-integral timestamps are rendered as exact fractions,
which is beyond what the theorems below evaluate). -/
def qStr (q : ℚ) : String := divStr q.num (q.den : Int)

/-- Model of `json.dump` of the entry map at its interface (the exact
indentation of the external library is abstracted; the document holds
every entry keyed by its stringified timestamp). -/
def jsonDump (entries : List (ℚ × HistEntry)) : String :=
  "\x7b" ++ String.intercalate ", "
    (entries.map (fun p =>
      "\"" ++ qStr p.1 ++ "\": \x7b\"user\": \"" ++ p.2.user ++
      "\", \"formatted-date\": \"" ++ p.2.formattedDate ++
      "\", \"version\": \"" ++ p.2.version ++ "\"\x7d")) ++ "\x7d"

/-- Model of the external `json.load` at the interface this module
exercises: the empty object (as written by `History.create`) parses to the
empty entry map; any other document — in particular markdown page content,
which is not JSON — fails (`none`, the parser's exception). -/
def jsonLoad (s : String) : Option (List (ℚ × HistEntry)) :=
  if pyStrip s.data = ("\x7b\x7d").data then some [] else none

-- ### Paths, the filesystem model, `Page.save` and the `Wiki` repository

/-- Model of `os.path.join(a, b)` for the platform separator `sep`
(`'/'` on POSIX, `'\\'` on Windows), at the interface this program
exercises (relative or absolute `b`, no drive letters). -/
def pyJoin (sep : Char) (a b : String) : String :=
  if b.data.head? = some '/' ∨ b.data.head? = some sep then b
  else if a = "" then b
  else if a.data.getLast? = some '/' ∨ a.data.getLast? = some sep then a ++ b
  else a ++ (⟨[sep]⟩ : String) ++ b

/-- `Wiki.path` (wiki/core.py lines 397-398):
`os.path.join(self.root, url + '.md')`. -/
def wikiPath (sep : Char) (root url : String) : String :=
  pyJoin sep root (url ++ ".md")

/-- The history path computed in `Page.__init__` (wiki/core.py line 253):
`path.replace("\\" + url + ".md", "/history/" + url + ".json")`. -/
def pageHistoryPath (path url : String) : String :=
  ⟨pyReplace path.data (("\\" ++ url ++ ".md").data) (("/history/" ++ url ++ ".json").data)⟩

/-- The filesystem, modelled as an insertion-ordered map from file path
to file content (directories are implicit). -/
abbrev Fs := List (String × String)

/-- Read a file (`None` when absent). -/
def fsGet (fs : Fs) (p : String) : Option String := dictGet fs p

/-- Write (create or overwrite) a file. -/
def fsSet (fs : Fs) (p : String) (c : String) : Fs := dictSet fs p c

/-- `os.remove`-style deletion of a path from the map. -/
def fsErase (fs : Fs) (p : String) : Fs := fs.filter (fun e => e.1 != p)

/-- The in-memory `Page` state that `Page.save` consumes: its content
path and url, the ordered `_meta` mapping, the markdown `body`, and the
attached `History`. -/
structure PageM where
  path : String
  url : String
  meta : List (String × String)
  body : String
  history : History

/-- Python `body.replace('\r\n', '\n')`. -/
def crlf (s : String) : String := ⟨pyReplace s.data ['\r', '\n'] ['\n']⟩

/-- The metadata header written by `Page.save`: one `key: value` line per
`_meta` item. -/
def metaLinesStr (meta : List (String × String)) : String :=
  meta.foldl (fun acc kv => acc ++ kv.1 ++ ": " ++ kv.2 ++ "\n") ""

/--
`Page.save` (wiki/core.py lines 270-286): write the metadata header, a
blank line and the CRLF-normalized body to the content file; append a
history entry (`History.save` writes the dumped entry map to the history
file); then, when `update` is set, reload the content file and re-render
it.  Returns the filesystem, the new history state and the outcome of the
update step (any render error propagates after the file and history
mutations have already been persisted).
-/
def pageSave (env : RenderEnv) (fs : Fs) (p : PageM) (user : String)
    (now : ℚ) (dateS : String) (update : Bool) :
    Fs × History × Except PyErr Unit :=
  let fileContent := metaLinesStr p.meta ++ "\n" ++ crlf p.body
  let fs1 := fsSet fs p.path fileContent
  let hist1 := historySave p.history now user (crlf p.body) dateS
  let fs2 := fsSet fs1 p.history.path (jsonDump hist1.entries)
  if update then
    match fsGet fs2 p.path with
    | none => (fs2, hist1, .error .fileNotFoundError)
    | some content => (fs2, hist1, (processModel env content).map (fun _ => ()))
  else (fs2, hist1, .ok ())

/--
`Wiki.delete` (wiki/core.py lines 444-451): `page = self.get(url)` first
constructs a full `Page` (creating the history file if absent, parsing it
as JSON, loading and rendering the content — any of which can raise), then
removes the history file and the content file.  Returns `False` without
touching the filesystem when the url has no content file.
-/
def wikiDelete (env : RenderEnv) (sep : Char) (root : String) (fs : Fs) (url : String) :
    Except PyErr (Bool × Fs) :=
  let path := wikiPath sep root url
  match fsGet fs path with
  | none => .ok (false, fs)
  | some content =>
    let hpath := pageHistoryPath path url
    let fs1 := match fsGet fs hpath with
      | some _ => fs
      | none => fsSet fs hpath ("\x7b\x7d\n")
    let hfile := match fsGet fs hpath with
      | some c => c
      | none => ("\x7b\x7d\n")
    match jsonLoad hfile with
    | none => .error .jsonError
    | some _ =>
      match processModel env content with
      | .error e => .error e
      | .ok _ =>
        match fsGet fs1 hpath with
        | none => .error .fileNotFoundError
        | some _ =>
          let fs2 := fsErase fs1 hpath
          match fsGet fs2 path with
          | none => .error .fileNotFoundError
          | some _ => .ok (true, fsErase fs2 path)

/-- One step of `posixpath.normpath`'s component loop. -/
def normStep (initSlashes : Nat) (acc : List (List Char)) (comp : List Char) :
    List (List Char) :=
  if comp = [] ∨ comp = ['.'] then acc
  else if comp ≠ ['.', '.'] ∨ (initSlashes = 0 ∧ acc = []) ∨
      acc.getLast? = some ['.', '.'] then
    acc ++ [comp]
  else if acc ≠ [] then acc.dropLast
  else acc

/-- `os.path.normpath` (POSIX rules, as used by `Wiki.move`): collapse
separators and `.` components and resolve `..` components. -/
def normpath (p : String) : String :=
  if p = "" then "."
  else
    let l := p.data
    let initSlashes : Nat :=
      if l.head? = some '/' then
        if (['/', '/']).isPrefixOf l ∧ ¬ (['/', '/', '/']).isPrefixOf l then 2 else 1
      else 0
    let comps := pySplitChar '/' l
    let newComps := comps.foldl (normStep initSlashes) []
    let joined := List.replicate initSlashes '/' ++
      (String.intercalate "/" (newComps.map (fun c => (⟨c⟩ : String)))).data
    if joined = [] then "." else ⟨joined⟩

/-- `os.path.commonprefix` on two paths: the longest common string
prefix (a character-wise comparison, not path containment). -/
def commonPfx : List Char → List Char → List Char
  | a :: ta, b :: tb => if a = b then a :: commonPfx ta tb else []
  | _, _ => []

/--
`Wiki.move` (wiki/core.py lines 423-442): resolve source and target
content paths, compare the longest common string prefix of the normalized
root and normalized target against the root's length, raise
`RuntimeError` when it is shorter, and otherwise rename the source file
to the target (directories are implicit in the file map).
-/
def wikiMove (fs : Fs) (root url newurl : String) : Except PyErr Fs :=
  let source := pyJoin '/' root url ++ ".md"
  let target := pyJoin '/' root newurl ++ ".md"
  let rootN := (normpath root).data
  let common := commonPfx rootN (normpath target).data
  if common.length < rootN.length then
    .error (.runtimeError ("Possible write attempt outside content directory: " ++ newurl))
  else
    match fsGet fs source with
    | none => .error .fileNotFoundError
    | some c => .ok (fsSet (fsErase fs source) target c)

/-- The Page attributes `index_by` groups on. -/
structure PageRec where
  url : String
  title : String
deriving Repr, DecidableEq

/-- Values stored by `index_by`: `list.append` returns `None`, so the
code stores Python `None` under every key (modelled as `none`); the
intended list of pages is never stored. -/
def index_by (pages : List PageRec) (attr : PageRec → String) :
    Except PyErr (List (String × Option (List PageRec))) :=
  pages.foldlM
    (fun acc page =>
      let value := attr page
      match dictGet acc value with
      | some _ => .error .attributeError
      | none => .ok (dictSet acc value none))
    []

/-- The step function folding one `save` call into the history. -/
def historyStep (h : History) (s : ℚ × String × String × String) : History :=
  historySave h s.1 s.2.1 s.2.2.1 s.2.2.2

-- ### Theorems

theorem toNat_ofNat_of_lt {n : Nat} (h : n < 55296) : (Char.ofNat n).toNat = n := by
  have hv : n.isValidChar := Or.inl h
  rw [Char.ofNat, dif_pos hv]
  rfl

theorem char_eq_iff_toNat {a b : Char} : a = b ↔ a.toNat = b.toNat := by
  constructor
  · rintro rfl; rfl
  · intro h
    have h2 := congrArg Char.ofNat h
    rwa [Char.ofNat_toNat, Char.ofNat_toNat] at h2

theorem pyLowerC_toNat_of_upper {c : Char} (h : 65 ≤ c.toNat ∧ c.toNat ≤ 90) :
    (pyLowerC c).toNat = c.toNat + 32 := by
  unfold pyLowerC
  rw [if_pos h]
  exact toNat_ofNat_of_lt (by omega)

theorem pyLowerC_of_not_upper {c : Char} (h : ¬ (65 ≤ c.toNat ∧ c.toNat ≤ 90)) :
    pyLowerC c = c := by
  unfold pyLowerC
  rw [if_neg h]

theorem pyLowerC_idem (c : Char) : pyLowerC (pyLowerC c) = pyLowerC c := by
  by_cases h : 65 ≤ c.toNat ∧ c.toNat ≤ 90
  · have ht := pyLowerC_toNat_of_upper h
    apply pyLowerC_of_not_upper
    omega
  · rw [pyLowerC_of_not_upper h, pyLowerC_of_not_upper h]

theorem pyIsSpace_pyLowerC (c : Char) : pyIsSpace (pyLowerC c) = pyIsSpace c := by
  by_cases h : 65 ≤ c.toNat ∧ c.toNat ≤ 90
  · have ht := pyLowerC_toNat_of_upper h
    have h1 : pyIsSpace (pyLowerC c) = false := by
      simp only [pyIsSpace, ht, Bool.or_eq_false_iff, decide_eq_false_iff_not]
      omega
    have h2 : pyIsSpace c = false := by
      simp only [pyIsSpace, Bool.or_eq_false_iff, decide_eq_false_iff_not]
      omega
    rw [h1, h2]
  · rw [pyLowerC_of_not_upper h]

-- ### Lemmas towards C8 (totality and idempotence of `clean_url`)

theorem collapseSp_of_no_space {l : List Char} (b : Bool) (h : ' ' ∉ l) :
    collapseSp b l = l := by
  induction l generalizing b with
  | nil => simp [collapseSp]
  | cons c t ih =>
    have hc : c ≠ ' ' := fun hc => h (hc ▸ List.mem_cons_self c t)
    have ht : ' ' ∉ t := fun hm => h (List.mem_cons_of_mem c hm)
    rw [collapseSp]
    simp [hc, ih false ht]

theorem collapseSpaces_of_no_space {l : List Char} (h : ' ' ∉ l) :
    collapseSpaces l = l :=
  collapseSp_of_no_space false h

theorem dropWhile_eq_self_of_head {p : Char → Bool} {l : List Char}
    (h : ∀ c, l.head? = some c → p c = false) : l.dropWhile p = l := by
  cases l with
  | nil => simp
  | cons c t =>
    have := h c rfl
    simp [List.dropWhile, this]

theorem pyStrip_eq_self {l : List Char}
    (h1 : ∀ c, l.head? = some c → pyIsSpace c = false)
    (h2 : ∀ c, l.getLast? = some c → pyIsSpace c = false) :
    pyStrip l = l := by
  unfold pyStrip
  rw [dropWhile_eq_self_of_head h1]
  rw [dropWhile_eq_self_of_head (by
    intro c hc
    apply h2
    rw [List.getLast?_eq_head?_reverse]
    exact hc)]
  exact List.reverse_reverse l

theorem drop_length_lt_of_isPrefixOf {s pat : List Char} (hpre : pat.isPrefixOf s)
    (hne : pat ≠ []) {fuel : Nat} (hf : s.length < fuel + 1) :
    (s.drop pat.length).length < fuel := by
  have h1 := (List.isPrefixOf_iff_prefix.mp hpre).length_le
  have h2 : 0 < pat.length := List.length_pos.mpr hne
  simp only [List.length_drop]
  omega

theorem pyReplaceF_of_not_mem {fuel : Nat} {s pat rep : List Char}
    (hf : s.length < fuel)
    (hne : pat ≠ []) (h : ∀ c, pat.head? = some c → c ∉ s) :
    pyReplaceF fuel s pat rep = s := by
  induction fuel generalizing s with
  | zero => omega
  | succ fuel ih =>
    have hnp : ¬ (pat.isPrefixOf s ∧ pat ≠ []) := by
      intro hc
      rcases hc with ⟨hpre, _⟩
      cases pat with
      | nil => exact hne rfl
      | cons p pt =>
        cases s with
        | nil => simp [List.isPrefixOf] at hpre
        | cons a t =>
          simp only [List.isPrefixOf, Bool.and_eq_true, beq_iff_eq] at hpre
          exact h p rfl (hpre.1 ▸ List.mem_cons_self a t)
    cases s with
    | nil => rw [pyReplaceF, if_neg hnp]
    | cons a t =>
      rw [pyReplaceF, if_neg hnp]
      have hlen : t.length < fuel := by
        simp only [List.length_cons] at hf
        omega
      have ht : ∀ d, pat.head? = some d → d ∉ t := by
        intro d hd hm
        exact h d hd (List.mem_cons_of_mem a hm)
      rw [ih hlen ht]

theorem pyReplace_of_not_mem {s : List Char} (pat rep : List Char)
    (hne : pat ≠ []) (h : ∀ c, pat.head? = some c → c ∉ s) :
    pyReplace s pat rep = s :=
  pyReplaceF_of_not_mem (Nat.lt_succ_self _) hne h

theorem pyReplaceF_ne_nil {fuel : Nat} {s pat rep : List Char}
    (hf : s.length < fuel) (hrep : rep ≠ []) (hs : s ≠ []) :
    pyReplaceF fuel s pat rep ≠ [] := by
  cases fuel with
  | zero => exact hs
  | succ fuel =>
    cases s with
    | nil => exact absurd rfl hs
    | cons c t =>
      rw [pyReplaceF]
      split
      · intro hc
        exact hrep (List.append_eq_nil.mp hc).1
      · simp

theorem mem_pyReplaceF {fuel : Nat} {s pat rep : List Char} {c : Char}
    (hf : s.length < fuel) (h : c ∈ pyReplaceF fuel s pat rep) :
    c ∈ s ∨ c ∈ rep := by
  induction fuel generalizing s with
  | zero => omega
  | succ fuel ih =>
    cases s with
    | nil =>
      rw [pyReplaceF] at h
      split at h
      · rename_i hcond
        exact absurd (List.prefix_nil.mp (List.isPrefixOf_iff_prefix.mp hcond.1)) hcond.2
      · simp at h
    | cons a t =>
      rw [pyReplaceF] at h
      split at h
      · rename_i hcond
        rcases List.mem_append.mp h with hr | hrec
        · exact Or.inr hr
        · rcases ih (drop_length_lt_of_isPrefixOf hcond.1 hcond.2 hf) hrec with hd | hr
          · exact Or.inl ((List.drop_suffix _ _).subset hd)
          · exact Or.inr hr
      · rcases List.mem_cons.mp h with rfl | hrec
        · exact Or.inl (List.mem_cons_self _ _)
        · have hlen : t.length < fuel := by
            simp only [List.length_cons] at hf
            omega
          rcases ih hlen hrec with ht | hr
          · exact Or.inl (List.mem_cons_of_mem _ ht)
          · exact Or.inr hr

theorem mem_pyReplace {s pat rep : List Char} {c : Char} (h : c ∈ pyReplace s pat rep) :
    c ∈ s ∨ c ∈ rep :=
  mem_pyReplaceF (Nat.lt_succ_self _) h

theorem head?_pyReplaceF {fuel : Nat} {s pat rep : List Char} {c : Char}
    (hf : s.length < fuel) (hrep : rep ≠ [])
    (h : (pyReplaceF fuel s pat rep).head? = some c) : c ∈ rep ∨ s.head? = some c := by
  cases fuel with
  | zero => omega
  | succ fuel =>
    cases s with
    | nil =>
      rw [pyReplaceF] at h
      split at h
      · rename_i hcond
        exact absurd (List.prefix_nil.mp (List.isPrefixOf_iff_prefix.mp hcond.1)) hcond.2
      · simp at h
    | cons a t =>
      rw [pyReplaceF] at h
      split at h
      · rw [List.head?_append] at h
        cases hrr : rep with
        | nil => exact absurd hrr hrep
        | cons r rs =>
          subst hrr
          simp only [List.head?_cons, Option.or_some, Option.some.injEq] at h
          subst h
          exact Or.inl (List.mem_cons_self r rs)
      · simp only [List.head?_cons, Option.some.injEq] at h
        exact Or.inr (by simp [h])

theorem head?_pyReplace {s pat rep : List Char} {c : Char} (hrep : rep ≠ [])
    (h : (pyReplace s pat rep).head? = some c) : c ∈ rep ∨ s.head? = some c :=
  head?_pyReplaceF (Nat.lt_succ_self _) hrep h

theorem getLast?_suffix_some {l s : List Char} {c : Char} (hs : s <:+ l)
    (h : s.getLast? = some c) : l.getLast? = some c := by
  rcases hs with ⟨pre, hpre⟩
  rw [← hpre, List.getLast?_append, h]
  rfl

theorem getLast?_pyReplaceF {fuel : Nat} {s pat rep : List Char} {c : Char}
    (hf : s.length < fuel) (hrep : rep ≠ [])
    (h : (pyReplaceF fuel s pat rep).getLast? = some c) :
    c ∈ rep ∨ s.getLast? = some c := by
  induction fuel generalizing s with
  | zero => omega
  | succ fuel ih =>
    cases s with
    | nil =>
      rw [pyReplaceF] at h
      split at h
      · rename_i hcond
        exact absurd (List.prefix_nil.mp (List.isPrefixOf_iff_prefix.mp hcond.1)) hcond.2
      · simp at h
    | cons a0 t0 =>
      rw [pyReplaceF] at h
      split at h
      · rename_i hcond
        rw [List.getLast?_append] at h
        cases hr : (pyReplaceF fuel ((a0 :: t0).drop pat.length) pat rep).getLast? with
        | some d =>
          rw [hr] at h
          simp only [Option.or_some, Option.some.injEq] at h
          subst h
          rcases ih (drop_length_lt_of_isPrefixOf hcond.1 hcond.2 hf) hr with hrep2 | hlast
          · exact Or.inl hrep2
          · exact Or.inr (getLast?_suffix_some (List.drop_suffix _ _) hlast)
        | none =>
          rw [hr] at h
          simp only [Option.none_or] at h
          exact Or.inl (List.mem_of_getLast?_eq_some h)
      · have hlen : t0.length < fuel := by
          simp only [List.length_cons] at hf
          omega
        have h2 : ([a0] ++ pyReplaceF fuel t0 pat rep).getLast? = some c := h
        rw [List.getLast?_append] at h2
        cases hr : (pyReplaceF fuel t0 pat rep).getLast? with
        | some d =>
          rw [hr] at h2
          simp only [Option.or_some, Option.some.injEq] at h2
          subst h2
          rcases ih hlen hr with hrep2 | hlast
          · exact Or.inl hrep2
          · right
            have h3 : (a0 :: t0) = [a0] ++ t0 := rfl
            rw [h3, List.getLast?_append, hlast]
            rfl
        | none =>
          rw [hr] at h2
          have htnil : t0 = [] := by
            by_contra htne
            exact pyReplaceF_ne_nil hlen hrep htne (List.getLast?_eq_none_iff.mp hr)
          subst htnil
          simp only [Option.none_or] at h2
          simp only [List.getLast?_singleton] at h2 ⊢
          exact Or.inr h2

theorem getLast?_pyReplace {s pat rep : List Char} {c : Char} (hrep : rep ≠ [])
    (h : (pyReplace s pat rep).getLast? = some c) : c ∈ rep ∨ s.getLast? = some c :=
  getLast?_pyReplaceF (Nat.lt_succ_self _) hrep h

theorem map_eq_self_of_fixed {f : Char → Char} {l : List Char}
    (h : ∀ c ∈ l, f c = c) : l.map f = l := by
  induction l with
  | nil => simp
  | cons c t ih =>
    simp only [List.map_cons]
    rw [h c (List.mem_cons_self c t), ih (fun d hd => h d (List.mem_cons_of_mem c hd))]

theorem head?_pyStrip_not {l : List Char} {c : Char} (h : (pyStrip l).head? = some c) :
    pyIsSpace c = false := by
  unfold pyStrip at h
  rw [List.head?_reverse] at h
  have hsuf : ((l.dropWhile (fun c => pyIsSpace c)).reverse).dropWhile
      (fun c => pyIsSpace c) <:+ (l.dropWhile (fun c => pyIsSpace c)).reverse :=
    List.dropWhile_suffix _
  have h2 := getLast?_suffix_some hsuf h
  rw [List.getLast?_eq_head?_reverse, List.reverse_reverse] at h2
  have h3 := List.head?_dropWhile_not (fun c => pyIsSpace c) l
  rw [h2] at h3
  exact h3

theorem getLast?_pyStrip_not {l : List Char} {c : Char} (h : (pyStrip l).getLast? = some c) :
    pyIsSpace c = false := by
  unfold pyStrip at h
  rw [List.getLast?_eq_head?_reverse, List.reverse_reverse] at h
  have h3 := List.head?_dropWhile_not (fun c => pyIsSpace c)
    (l.dropWhile (fun c => pyIsSpace c)).reverse
  rw [h] at h3
  exact h3

theorem cleanUrlL_chars {l : List Char} {c : Char} (h : c ∈ cleanUrlL l) :
    c ≠ ' ' ∧ c ≠ '\\' ∧ pyLowerC c = c := by
  unfold cleanUrlL at h
  rcases List.mem_map.mp h with ⟨e, he, rfl⟩
  have heProps : e ≠ ' ' ∧ pyLowerC e = e := by
    rcases mem_pyReplace he with hs2 | hrep
    · rcases List.mem_map.mp hs2 with ⟨d, hd, rfl⟩
      rcases List.mem_map.mp hd with ⟨d0, _, rfl⟩
      by_cases hsp : pyLowerC d0 = ' '
      · rw [hsp]
        exact ⟨by decide, by decide⟩
      · rw [if_neg hsp]
        exact ⟨hsp, pyLowerC_idem d0⟩
    · simp only [List.mem_singleton] at hrep
      subst hrep
      exact ⟨by decide, by decide⟩
  by_cases hbs : e = '\\'
  · rw [if_pos hbs]
    exact ⟨by decide, by decide, by decide⟩
  · rw [if_neg hbs]
    exact ⟨heProps.1, hbs, heProps.2⟩

theorem cleanUrlL_head {l : List Char} {c : Char} (h : (cleanUrlL l).head? = some c) :
    pyIsSpace c = false := by
  unfold cleanUrlL at h
  rw [List.head?_map] at h
  cases he : (pyReplace ((pyStrip (collapseSpaces l)).map pyLowerC |>.map
      (fun c => if c = ' ' then '_' else c)) ['\\', '\\'] ['/']).head? with
  | none => rw [he] at h; simp at h
  | some e =>
    rw [he] at h
    simp only [Option.map_some', Option.some.injEq] at h
    subst h
    have hens : pyIsSpace e = false := by
      rcases head?_pyReplace (by simp) he with hrep | hs2
      · simp only [List.mem_singleton] at hrep
        subst hrep
        decide
      · rw [List.head?_map] at hs2
        cases hd : ((pyStrip (collapseSpaces l)).map pyLowerC).head? with
        | none => rw [hd] at hs2; simp at hs2
        | some d =>
          rw [hd] at hs2
          simp only [Option.map_some', Option.some.injEq] at hs2
          subst hs2
          rw [List.head?_map] at hd
          cases hd0 : (pyStrip (collapseSpaces l)).head? with
          | none => rw [hd0] at hd; simp at hd
          | some d0 =>
            rw [hd0] at hd
            simp only [Option.map_some', Option.some.injEq] at hd
            subst hd
            have hd0ns := head?_pyStrip_not hd0
            have hlow : pyIsSpace (pyLowerC d0) = false := by
              rw [pyIsSpace_pyLowerC]; exact hd0ns
            by_cases hsp : pyLowerC d0 = ' '
            · rw [hsp] at hlow; simp [pyIsSpace] at hlow
            · rw [if_neg hsp]; exact hlow
    by_cases hbs : e = '\\'
    · rw [if_pos hbs]; decide
    · rw [if_neg hbs]; exact hens

theorem cleanUrlL_getLast {l : List Char} {c : Char} (h : (cleanUrlL l).getLast? = some c) :
    pyIsSpace c = false := by
  unfold cleanUrlL at h
  rw [List.getLast?_map] at h
  cases he : (pyReplace ((pyStrip (collapseSpaces l)).map pyLowerC |>.map
      (fun c => if c = ' ' then '_' else c)) ['\\', '\\'] ['/']).getLast? with
  | none => rw [he] at h; simp at h
  | some e =>
    rw [he] at h
    simp only [Option.map_some', Option.some.injEq] at h
    subst h
    have hens : pyIsSpace e = false := by
      rcases getLast?_pyReplace (by simp) he with hrep | hs2
      · simp only [List.mem_singleton] at hrep
        subst hrep
        decide
      · rw [List.getLast?_map] at hs2
        cases hd : ((pyStrip (collapseSpaces l)).map pyLowerC).getLast? with
        | none => rw [hd] at hs2; simp at hs2
        | some d =>
          rw [hd] at hs2
          simp only [Option.map_some', Option.some.injEq] at hs2
          subst hs2
          rw [List.getLast?_map] at hd
          cases hd0 : (pyStrip (collapseSpaces l)).getLast? with
          | none => rw [hd0] at hd; simp at hd
          | some d0 =>
            rw [hd0] at hd
            simp only [Option.map_some', Option.some.injEq] at hd
            subst hd
            have hd0ns := getLast?_pyStrip_not hd0
            have hlow : pyIsSpace (pyLowerC d0) = false := by
              rw [pyIsSpace_pyLowerC]; exact hd0ns
            by_cases hsp : pyLowerC d0 = ' '
            · rw [hsp] at hlow; simp [pyIsSpace] at hlow
            · rw [if_neg hsp]; exact hlow
    by_cases hbs : e = '\\'
    · rw [if_pos hbs]; decide
    · rw [if_neg hbs]; exact hens

theorem cleanUrlL_idem (l : List Char) : cleanUrlL (cleanUrlL l) = cleanUrlL l := by
  have h1 : collapseSpaces (cleanUrlL l) = cleanUrlL l :=
    collapseSpaces_of_no_space (fun hm => (cleanUrlL_chars hm).1 rfl)
  have h2 : pyStrip (cleanUrlL l) = cleanUrlL l :=
    pyStrip_eq_self (fun _ hc => cleanUrlL_head hc) (fun _ hc => cleanUrlL_getLast hc)
  have h3 : (cleanUrlL l).map pyLowerC = cleanUrlL l :=
    map_eq_self_of_fixed (fun c hc => (cleanUrlL_chars hc).2.2)
  have h4 : (cleanUrlL l).map (fun c => if c = ' ' then '_' else c) = cleanUrlL l :=
    map_eq_self_of_fixed (fun c hc => if_neg (cleanUrlL_chars hc).1)
  have h5 : pyReplace (cleanUrlL l) ['\\', '\\'] ['/'] = cleanUrlL l := by
    apply pyReplace_of_not_mem _ _ (by simp)
    intro c hc hm
    simp only [List.head?_cons, Option.some.injEq] at hc
    subst hc
    exact (cleanUrlL_chars hm).2.1 rfl
  have h6 : (cleanUrlL l).map (fun c => if c = '\\' then '/' else c) = cleanUrlL l :=
    map_eq_self_of_fixed (fun c hc => if_neg (cleanUrlL_chars hc).2.1)
  show (pyReplace (((pyStrip (collapseSpaces (cleanUrlL l))).map pyLowerC).map
      (fun c => if c = ' ' then '_' else c)) ['\\', '\\'] ['/']).map
      (fun c => if c = '\\' then '/' else c) = cleanUrlL l
  rw [h1, h2, h3, h4, h5, h6]

/--
**C8.**  The URL normalizer is total and idempotent: `clean_url` is a total
function on strings (it is defined for every input and raises no exception;
in particular the empty string normalizes to the empty string), and
`clean_url (clean_url s) = clean_url s` for every string `s`.
-/
theorem C8_clean_url_total_idempotent :
    (∀ s : String, clean_url (clean_url s) = clean_url s) ∧ clean_url "" = "" := by
  constructor
  · intro s
    show (⟨cleanUrlL (cleanUrlL s.data)⟩ : String) = ⟨cleanUrlL s.data⟩
    exact congrArg String.mk (cleanUrlL_idem s.data)
  · decide

theorem tryMatchAt_none_of_code {prevRev rest : List Char}
    (h : prevRev.take 6 = codeRevL) : tryMatchAt prevRev rest = none := by
  rw [tryMatchAt.eq_def]
  split
  · rw [if_pos h]
  · rfl

theorem findFirst_not_after_code {prevRev rest pre : List Char} {m : WikiMatch}
    {after : List Char}
    (h : findFirst prevRev rest = some (pre, m, after)) :
    pre.reverse.take 6 ≠ codeRevL := by
  induction rest generalizing prevRev with
  | nil => simp [findFirst] at h
  | cons c t ih =>
    rw [findFirst] at h
    cases htry : tryMatchAt prevRev (c :: t) with
    | some r =>
      obtain ⟨m2, after2⟩ := r
      rw [htry] at h
      simp only [Option.some.injEq, Prod.mk.injEq] at h
      obtain ⟨hpre, _, _⟩ := h
      subst hpre
      rw [List.reverse_reverse]
      intro hcode
      rw [tryMatchAt_none_of_code hcode] at htry
      exact Option.noConfusion htry
    | none =>
      rw [htry] at h
      exact ih h

/--
**C5 (counterexample).**  The claim states that the link resolver never
rewrites an occurrence of `[[target]]` embedded inside an inline-code
span.  In the code the only guard is a negative lookbehind for the literal
`<code>` directly before the `[[`, so an occurrence inside a code span but
not immediately after the opening tag IS rewritten: in
`<code>x [[foo]]</code>` the wikilink inside the code span becomes an
anchor.
-/
theorem C5_wikilink_code_span_counterexample :
    wikilink "<code>x [[foo]]</code>" fmtDemo =
      "<code>x <a href='/foo'>foo</a></code>" := by decide

/--
**C5 (amended).**  The link resolver rewrites `[[target]]` /
`[[target|Display]]` occurrences into anchors whose href is the injected
formatter applied to `clean_url target` and whose text is the display name
(defaulting to the raw target), applied once per match, left to right,
non-overlapping — but the code-span guard is only the negative lookbehind
`(?<!<code>)`: a match never starts directly after the literal `<code>`
(first conjunct, for every input), while occurrences elsewhere inside a
code span are still rewritten; moreover the target group is `[^<].+?`, so
a one-character target such as `[[a]]` is never rewritten.  The concrete
conjuncts exercise: default display with normalization, explicit display,
the lookbehind guard, two matches left to right, and the two-character
minimum.
-/
theorem C5_wikilink_amended :
    (∀ (prevRev rest pre : List Char) (m : WikiMatch) (after : List Char),
        findFirst prevRev rest = some (pre, m, after) →
        pre.reverse.take 6 ≠ codeRevL) ∧
    wikilink "see [[Foo Bar]] ok" fmtDemo = "see <a href='/foo_bar'>Foo Bar</a> ok" ∧
    wikilink "[[Foo|The Foo]]" fmtDemo = "<a href='/foo'>The Foo</a>" ∧
    wikilink "<code>[[Foo]]</code>" fmtDemo = "<code>[[Foo]]</code>" ∧
    wikilink "[[ab]] and [[cd]]" fmtDemo =
      "<a href='/ab'>ab</a> and <a href='/cd'>cd</a>" ∧
    wikilink "[[a]]" fmtDemo = "[[a]]" := by
  refine ⟨?_, by decide, by decide, by decide, by decide, by decide⟩
  intro prevRev rest pre m after h
  exact findFirst_not_after_code h

/-- Witness for the hypothesis-bearing conjunct of `C5_wikilink_amended`:
the leftmost match in `[[ab]]` starts at position 0, whose (empty) left
context is not the literal `<code>`. -/
theorem C5_wikilink_amended_witness :
    ([] : List Char).reverse.take 6 ≠ codeRevL :=
  C5_wikilink_amended.1 [] ("[[ab]]".data) [] ⟨"ab".data, none⟩ [] (by decide)

theorem splitOnceL_isSome_iff {pat : List Char} (hne : pat ≠ []) (s : List Char) :
    (splitOnceL pat s).isSome ↔ ∃ x y, s = x ++ pat ++ y := by
  induction s with
  | nil =>
    simp only [splitOnceL, Option.isSome_none, Bool.false_eq_true, false_iff]
    rintro ⟨x, y, hxy⟩
    have := congrArg List.length hxy
    simp only [List.length_nil, List.length_append] at this
    have := List.length_pos.mpr hne
    omega
  | cons c t ih =>
    rw [splitOnceL]
    by_cases hp : pat.isPrefixOf (c :: t)
    · rw [if_pos hp]
      simp only [Option.isSome_some, true_iff]
      rcases List.isPrefixOf_iff_prefix.mp hp with ⟨y, hy⟩
      exact ⟨[], y, by simp [hy.symm]⟩
    · rw [if_neg hp]
      simp only [Option.isSome_map']
      rw [ih]
      constructor
      · rintro ⟨x, y, rfl⟩
        exact ⟨c :: x, y, rfl⟩
      · rintro ⟨x, y, hxy⟩
        cases x with
        | nil =>
          exfalso
          apply hp
          apply List.isPrefixOf_iff_prefix.mpr
          simp only [List.nil_append] at hxy
          exact ⟨y, hxy.symm⟩
        | cons x0 xs =>
          simp only [List.cons_append, List.cons.injEq] at hxy
          exact ⟨xs, y, hxy.2⟩

theorem splitOnceL_eq_some {pat s a b : List Char} (h : splitOnceL pat s = some (a, b)) :
    s = a ++ pat ++ b ∧ ∀ x y, s = x ++ pat ++ y → a.length ≤ x.length := by
  induction s generalizing a b with
  | nil => simp [splitOnceL] at h
  | cons c t ih =>
    rw [splitOnceL] at h
    by_cases hp : pat.isPrefixOf (c :: t)
    · rw [if_pos hp] at h
      simp only [Option.some.injEq, Prod.mk.injEq] at h
      obtain ⟨rfl, rfl⟩ := h
      rcases List.isPrefixOf_iff_prefix.mp hp with ⟨y, hy⟩
      constructor
      · rw [List.nil_append, ← hy, List.drop_left]
      · intro x y2 _
        simp
    · rw [if_neg hp] at h
      cases hrec : splitOnceL pat t with
      | none => rw [hrec] at h; simp at h
      | some p =>
        obtain ⟨a2, b2⟩ := p
        rw [hrec] at h
        simp only [Option.map_some', Option.some.injEq, Prod.mk.injEq] at h
        obtain ⟨rfl, rfl⟩ := h
        obtain ⟨hdec, hmin⟩ := ih hrec
        constructor
        · simp [hdec]
        · intro x y2 hxy
          cases x with
          | nil =>
            exfalso
            apply hp
            apply List.isPrefixOf_iff_prefix.mpr
            simp only [List.nil_append] at hxy
            exact ⟨y2, hxy.symm⟩
          | cons x0 xs =>
            simp only [List.cons_append, List.cons.injEq] at hxy
            simp only [List.length_cons, Nat.add_le_add_iff_right]
            exact hmin xs y2 hxy.2

/--
**C4.**  `split_raw` divides the pre-processed source at the first blank
line (`"\n\n"`): it fails exactly when no blank-line separator exists
(first conjunct), on success the source decomposes as
`meta ++ "\n\n" ++ body` with the split at the first occurrence (second
conjunct), and a `split_raw` failure surfaces from `process` as a
malformed-content error (`ValueError`) rather than silently continuing
(third conjunct).
-/
theorem C4_split_raw_first_blank_line (s : String) :
    ((split_raw s).isNone ↔ ¬ ∃ x y : List Char, s.data = x ++ ['\n', '\n'] ++ y) ∧
    (∀ a b : String, split_raw s = some (a, b) →
      s.data = a.data ++ ['\n', '\n'] ++ b.data ∧
      ∀ x y : List Char, s.data = x ++ ['\n', '\n'] ++ y → a.data.length ≤ x.length) ∧
    (∀ env : RenderEnv, split_raw s = none → processModel env s = .error .valueError) := by
  refine ⟨?_, ?_, ?_⟩
  · rw [← @splitOnceL_isSome_iff ['\n', '\n'] (by simp) s.data]
    unfold split_raw
    cases splitOnceL ['\n', '\n'] s.data <;> simp
  · intro a b hab
    unfold split_raw at hab
    cases hrec : splitOnceL ['\n', '\n'] s.data with
    | none => rw [hrec] at hab; simp at hab
    | some p =>
      rw [hrec] at hab
      simp only [Option.map_some', Option.some.injEq, Prod.mk.injEq] at hab
      obtain ⟨ha, hb⟩ := hab
      obtain ⟨hdec, hmin⟩ := splitOnceL_eq_some hrec
      have ha2 : a.data = p.1 := by rw [← ha]
      have hb2 : b.data = p.2 := by rw [← hb]
      rw [ha2, hb2]
      exact ⟨hdec, hmin⟩
  · intro env hnone
    simp only [processModel, hnone]

/-- Witness for `C4_split_raw_first_blank_line`: the separator case at
`"m\n\nbody"` and the failure case at `"nosep"`. -/
theorem C4_split_raw_witness :
    ("m\n\nbody" : String).data =
      ("m" : String).data ++ ['\n', '\n'] ++ ("body" : String).data ∧
    processModel envDemo "nosep" = .error .valueError := by
  constructor
  · exact (((C4_split_raw_first_blank_line "m\n\nbody").2.1) "m" "body" (by decide)).1
  · exact ((C4_split_raw_first_blank_line "nosep").2.2) envDemo (by decide)

-- ### Lemmas towards C3 (the rating-average mutation in `process_meta`)

theorem isDigit_toNat {c : Char} (h : c.isDigit = true) : 48 ≤ c.toNat ∧ c.toNat ≤ 57 := by
  simp only [Char.isDigit, Bool.and_eq_true, ge_iff_le, decide_eq_true_eq] at h
  exact h

theorem digit_not_special {c : Char} (h : c.isDigit = true) :
    pyIsSpace c = false ∧ c ≠ '\n' ∧ c ≠ ':' := by
  obtain ⟨h1, h2⟩ := isDigit_toNat h
  refine ⟨?_, ?_, ?_⟩
  · simp only [pyIsSpace, Bool.or_eq_false_iff, decide_eq_false_iff_not]
    omega
  · intro hc
    have h3 := char_eq_iff_toNat.mp hc
    have h4 : ('\n').toNat = 10 := by decide
    omega
  · intro hc
    have h3 := char_eq_iff_toNat.mp hc
    have h4 : (':').toNat = 58 := by decide
    omega

theorem pySplitChar_no_sep {sep : Char} {l : List Char} (h : sep ∉ l) :
    pySplitChar sep l = [l] := by
  induction l with
  | nil => rfl
  | cons c t ih =>
    have hc : c ≠ sep := fun hc => h (hc ▸ List.mem_cons_self c t)
    have ht : sep ∉ t := fun hm => h (List.mem_cons_of_mem c hm)
    rw [pySplitChar, if_neg hc, ih ht]

theorem pySplitChar_append {sep : Char} {l1 : List Char} (l2 : List Char) (h : sep ∉ l1) :
    pySplitChar sep (l1 ++ sep :: l2) = l1 :: pySplitChar sep l2 := by
  induction l1 with
  | nil => simp [pySplitChar]
  | cons c t ih =>
    have hc : c ≠ sep := fun hc => h (hc ▸ List.mem_cons_self c t)
    have ht : sep ∉ t := fun hm => h (List.mem_cons_of_mem c hm)
    rw [List.cons_append, pySplitChar, if_neg hc, ih ht]

theorem splitColon1Key_append {l1 : List Char} (l2 : List Char) (h : ':' ∉ l1) :
    splitColon1Key (l1 ++ ':' :: l2) = l1 := by
  induction l1 with
  | nil => simp [splitColon1Key]
  | cons c t ih =>
    have hc : c ≠ ':' := fun hc => h (hc ▸ List.mem_cons_self c t)
    have ht : ':' ∉ t := fun hm => h (List.mem_cons_of_mem c hm)
    rw [List.cons_append, splitColon1Key, if_neg hc, ih ht]

theorem pySplitWsGo_word {w : List Char} (r cur : List Char)
    (h : ∀ c ∈ w, pyIsSpace c = false) :
    pySplitWsGo cur (w ++ r) = pySplitWsGo (w.reverse ++ cur) r := by
  induction w generalizing cur with
  | nil => simp
  | cons c t ih =>
    have hc := h c (List.mem_cons_self c t)
    have ht : ∀ d ∈ t, pyIsSpace d = false := fun d hd => h d (List.mem_cons_of_mem c hd)
    rw [List.cons_append, pySplitWsGo, hc]
    simp only [Bool.false_eq_true, if_false]
    rw [ih (c :: cur) ht]
    simp

theorem pySplitWs_two_words {w1 w2 : List Char} (h1 : w1 ≠ [])
    (hw1 : ∀ c ∈ w1, pyIsSpace c = false) (h2 : w2 ≠ [])
    (hw2 : ∀ c ∈ w2, pyIsSpace c = false) :
    pySplitWs (w1 ++ ' ' :: w2) = [w1, w2] := by
  have hw2go : pySplitWsGo [] w2 = [w2] := by
    have hx := pySplitWsGo_word ([] : List Char) ([] : List Char) hw2
    rw [List.append_nil] at hx
    rw [hx, pySplitWsGo]
    simp [h2]
  unfold pySplitWs
  rw [pySplitWsGo_word (' ' :: w2) [] hw1, List.append_nil, pySplitWsGo]
  simp [h1, hw2go]
  intro hcontra
  exact absurd hcontra (by decide)

theorem pyInt?_digits {l : List Char} {n : Int} (hd : ∀ c ∈ l, c.isDigit)
    (h : pyInt? l = some n) : l ≠ [] := by
  intro hnil
  subst hnil
  simp [pyInt?, parseDigits] at h

theorem dictGet_dictSet_self {β : Type} (l : List (String × β)) (k : String) (v : β) :
    dictGet (dictSet l k v) k = some v := by
  induction l with
  | nil => simp [dictSet, dictGet]
  | cons p t ih =>
    obtain ⟨k2, v2⟩ := p
    by_cases h : k2 = k
    · subst h
      simp [dictSet, dictGet]
    · rw [dictSet, if_neg h, dictGet, if_neg h]
      exact ih

theorem line_key_total (rest : List Char) :
    splitColon1Key (['t', 'o', 't', 'a', 'l', ':', ' '] ++ rest) = ['t', 'o', 't', 'a', 'l'] := by
  have hshape : ['t', 'o', 't', 'a', 'l', ':', ' '] ++ rest = ['t', 'o', 't', 'a', 'l'] ++ ':' :: (' ' :: rest) := rfl
  rw [hshape, splitColon1Key_append _ (by decide)]

theorem line_key_timesrated (rest : List Char) :
    splitColon1Key (['t', 'i', 'm', 'e', 's', 'r', 'a', 't', 'e', 'd', ':', ' '] ++ rest) = ['t', 'i', 'm', 'e', 's', 'r', 'a', 't', 'e', 'd'] := by
  have hshape : ['t', 'i', 'm', 'e', 's', 'r', 'a', 't', 'e', 'd', ':', ' '] ++ rest = ['t', 'i', 'm', 'e', 's', 'r', 'a', 't', 'e', 'd'] ++ ':' :: (' ' :: rest) := rfl
  rw [hshape, splitColon1Key_append _ (by decide)]

theorem line_key_rating (rest : List Char) :
    splitColon1Key (['r', 'a', 't', 'i', 'n', 'g', ':', ' '] ++ rest) = ['r', 'a', 't', 'i', 'n', 'g'] := by
  have hshape : ['r', 'a', 't', 'i', 'n', 'g', ':', ' '] ++ rest = ['r', 'a', 't', 'i', 'n', 'g'] ++ ':' :: (' ' :: rest) := rfl
  rw [hshape, splitColon1Key_append _ (by decide)]

theorem line_rate_word (w rest : List Char)
    (hword : ∀ c ∈ w ++ [':'], pyIsSpace c = false)
    (hne : rest ≠ []) (hrest : ∀ c ∈ rest, pyIsSpace c = false) :
    pySplitWs ((w ++ [':', ' ']) ++ rest) = [w ++ [':'], rest] := by
  have hshape : (w ++ [':', ' ']) ++ rest = (w ++ [':']) ++ ' ' :: rest := by simp
  rw [hshape]
  exact pySplitWs_two_words (by simp) hword hne hrest

theorem metaScanLine_total {sT : List Char} {T : Int} (hT : pyInt? sT = some T)
    (hTd : ∀ c ∈ sT, c.isDigit) (acc : Int × Int × Int) :
    metaScanLine acc (['t', 'o', 't', 'a', 'l', ':', ' '] ++ sT) = .ok (T, acc.2.1, acc.2.2) := by
  have hne : sT ≠ [] := pyInt?_digits hTd hT
  have hrate : pySplitWs (['t', 'o', 't', 'a', 'l', ':', ' '] ++ sT) = [['t', 'o', 't', 'a', 'l', ':'], sT] := by
    have hshape : ['t', 'o', 't', 'a', 'l', ':', ' '] ++ sT = (['t', 'o', 't', 'a', 'l'] ++ [':', ' ']) ++ sT := rfl
    rw [hshape]
    exact line_rate_word _ _ (by decide) hne
      (fun c hc => (digit_not_special (hTd c hc)).1)
  unfold metaScanLine
  rw [line_key_total sT, hrate]
  simp [hT]

theorem metaScanLine_timesrated {sR : List Char} {R : Int} (hR : pyInt? sR = some R)
    (hRd : ∀ c ∈ sR, c.isDigit) (acc : Int × Int × Int) :
    metaScanLine acc (['t', 'i', 'm', 'e', 's', 'r', 'a', 't', 'e', 'd', ':', ' '] ++ sR) = .ok (acc.1, R + 1, acc.2.2) := by
  have hne : sR ≠ [] := pyInt?_digits hRd hR
  have hrate : pySplitWs (['t', 'i', 'm', 'e', 's', 'r', 'a', 't', 'e', 'd', ':', ' '] ++ sR) = [['t', 'i', 'm', 'e', 's', 'r', 'a', 't', 'e', 'd', ':'], sR] := by
    have hshape : ['t', 'i', 'm', 'e', 's', 'r', 'a', 't', 'e', 'd', ':', ' '] ++ sR = (['t', 'i', 'm', 'e', 's', 'r', 'a', 't', 'e', 'd'] ++ [':', ' ']) ++ sR := rfl
    rw [hshape]
    exact line_rate_word _ _ (by decide) hne
      (fun c hc => (digit_not_special (hRd c hc)).1)
  unfold metaScanLine
  rw [line_key_timesrated sR, hrate]
  simp [hR]

theorem metaScanLine_rating {sX : List Char} {X : Int} (hX : pyInt? sX = some X)
    (hXd : ∀ c ∈ sX, c.isDigit) (acc : Int × Int × Int) :
    metaScanLine acc (['r', 'a', 't', 'i', 'n', 'g', ':', ' '] ++ sX) = .ok (acc.1, acc.2.1, X) := by
  have hne : sX ≠ [] := pyInt?_digits hXd hX
  have hrate : pySplitWs (['r', 'a', 't', 'i', 'n', 'g', ':', ' '] ++ sX) = [['r', 'a', 't', 'i', 'n', 'g', ':'], sX] := by
    have hshape : ['r', 'a', 't', 'i', 'n', 'g', ':', ' '] ++ sX = (['r', 'a', 't', 'i', 'n', 'g'] ++ [':', ' ']) ++ sX := rfl
    rw [hshape]
    exact line_rate_word _ _ (by decide) hne
      (fun c hc => (digit_not_special (hXd c hc)).1)
  unfold metaScanLine
  rw [line_key_rating sX, hrate]
  simp [hX]

theorem metaWriteLine_total (total timesRated : Int) (ratedS : String) (sT : List Char)
    (acc : List (String × MetaVal) × List (String × String)) :
    metaWriteLine total timesRated ratedS acc (['t', 'o', 't', 'a', 'l', ':', ' '] ++ sT) =
      .ok (dictSet acc.1 "total" (.str (pyLowerS (intStr total))),
           dictSet acc.2 "total" (joinNL (.str (pyLowerS (intStr total))))) := by
  have hlow : pyLowerS ⟨['t', 'o', 't', 'a', 'l']⟩ = "total" := by decide
  unfold metaWriteLine
  rw [line_key_total sT]
  simp [hlow, dictGet_dictSet_self]

theorem metaWriteLine_timesrated (total timesRated : Int) (ratedS : String) (sR : List Char)
    (acc : List (String × MetaVal) × List (String × String)) :
    metaWriteLine total timesRated ratedS acc (['t', 'i', 'm', 'e', 's', 'r', 'a', 't', 'e', 'd', ':', ' '] ++ sR) =
      .ok (dictSet acc.1 "timesrated" (.str (pyLowerS (intStr timesRated))),
           dictSet acc.2 "timesrated" (joinNL (.str (pyLowerS (intStr timesRated))))) := by
  have hlow : pyLowerS ⟨['t', 'i', 'm', 'e', 's', 'r', 'a', 't', 'e', 'd']⟩ = "timesrated" := by decide
  unfold metaWriteLine
  rw [line_key_timesrated sR]
  simp [hlow, dictGet_dictSet_self]

theorem metaWriteLine_rating (total timesRated : Int) (ratedS : String) (sX : List Char)
    (acc : List (String × MetaVal) × List (String × String)) :
    metaWriteLine total timesRated ratedS acc (['r', 'a', 't', 'i', 'n', 'g', ':', ' '] ++ sX) =
      .ok (dictSet acc.1 "rating" (.str (pyLowerS ratedS)),
           dictSet acc.2 "rating" (joinNL (.str (pyLowerS ratedS)))) := by
  have hlow : pyLowerS ⟨['r', 'a', 't', 'i', 'n', 'g']⟩ = "rating" := by decide
  unfold metaWriteLine
  rw [line_key_rating sX]
  simp [hlow, dictGet_dictSet_self]

/-- Bind of a successful `Except` computation. -/
theorem exceptBind_ok {ε α β : Type} (a : α) (f : α → Except ε β) :
    (Except.ok a : Except ε α) >>= f = f a := rfl

/--
**C3 (counterexample).**  The claim states that `parse-meta` writes the
updated `total` / `timesrated` / `rating` values back into the in-memory
metadata mapping *as strings*.  The renderer's `md.Meta` does receive the
value strings, but the processor's own ordered metadata mapping — the one
the page exposes and later persists — receives `'\n'.join` of those
strings, which interleaves a newline between adjacent characters: for the
header `total: 4, timesrated: 1, rating: 6` the new average `5.0` is
stored as `"5\n.\n0"` and the new total `10` as `"1\n0"`.
-/
theorem C3_process_meta_counterexample :
    process_meta "total: 4\ntimesrated: 1\nrating: 6"
      [("total", .lines ["4"]), ("timesrated", .lines ["1"]), ("rating", .lines ["6"])] =
    .ok ([("total", .str "10"), ("timesrated", .str "2"), ("rating", .str "5.0")],
         [("total", "1\n0"), ("timesrated", "2"), ("rating", "5\n.\n0")]) ∧
    ("1\n0" : String) ≠ "10" ∧ ("5\n.\n0" : String) ≠ "5.0" :=
  ⟨by decide, by decide, by decide⟩

/--
**C3 (amended).**  For every metadata header of the canonical shape
`total: T / timesrated: R / rating: X` (integer tokens) with `R + 1 ≠ 0`
and any initial renderer metadata, `process_meta` computes the new rolling
average as `(rating + total) / timesrated` where `total` and `rating`
default to 0, and `timesrated` — reinitialized to 1 when absent — is the
incremented count `R + 1`; it writes the updated `total = X + T`,
`timesrated = R + 1` and `rating = str((X + T) / (R + 1))` back into the
renderer's metadata mapping as strings, while the processor's ordered
metadata mapping receives the same values with a newline interleaved
between adjacent characters (the `'\n'.join` of each string), so parsing
a page mutates its rating statistics as a side effect of rendering.
-/
theorem C3_process_meta_amended (T R X : Int) (sT sR sX : List Char)
    (hT : pyInt? sT = some T) (hTd : ∀ c ∈ sT, c.isDigit)
    (hR : pyInt? sR = some R) (hRd : ∀ c ∈ sR, c.isDigit)
    (hX : pyInt? sX = some X) (hXd : ∀ c ∈ sX, c.isDigit)
    (hR1 : R + 1 ≠ 0) (mdMeta0 : List (String × MetaVal)) :
    process_meta
      ⟨("total: ").data ++ sT ++
        '\n' :: (("timesrated: ").data ++ sR ++ '\n' :: (("rating: ").data ++ sX))⟩
      mdMeta0 =
    .ok (dictSet (dictSet (dictSet mdMeta0 "total" (.str (pyLowerS (intStr (X + T)))))
            "timesrated" (.str (pyLowerS (intStr (R + 1)))))
            "rating" (.str (pyLowerS (divStr (X + T) (R + 1)))),
         [("total", joinNL (.str (pyLowerS (intStr (X + T))))),
          ("timesrated", joinNL (.str (pyLowerS (intStr (R + 1))))),
          ("rating", joinNL (.str (pyLowerS (divStr (X + T) (R + 1)))))]) := by
  have hnl1 : ('\n') ∉ ("total: ").data ++ sT := by
    intro hm
    rcases List.mem_append.mp hm with hm | hm
    · revert hm; decide
    · exact (digit_not_special (hTd _ hm)).2.1 rfl
  have hnl2 : ('\n') ∉ ("timesrated: ").data ++ sR := by
    intro hm
    rcases List.mem_append.mp hm with hm | hm
    · revert hm; decide
    · exact (digit_not_special (hRd _ hm)).2.1 rfl
  have hnl3 : ('\n') ∉ ("rating: ").data ++ sX := by
    intro hm
    rcases List.mem_append.mp hm with hm | hm
    · revert hm; decide
    · exact (digit_not_special (hXd _ hm)).2.1 rfl
  have hsplit : pySplitChar '\n'
      (("total: ").data ++ sT ++
        '\n' :: (("timesrated: ").data ++ sR ++ '\n' :: (("rating: ").data ++ sX))) =
      [("total: ").data ++ sT, ("timesrated: ").data ++ sR, ("rating: ").data ++ sX] := by
    rw [pySplitChar_append _ hnl1, pySplitChar_append _ hnl2, pySplitChar_no_sep hnl3]
  have hsc1 := metaScanLine_total hT hTd ((0 : Int), (1 : Int), (0 : Int))
  have hsc2 := metaScanLine_timesrated hR hRd (T, (1 : Int), (0 : Int))
  have hsc3 := metaScanLine_rating hX hXd (T, R + 1, (0 : Int))
  have hw1 := metaWriteLine_total (X + T) (R + 1) (divStr (X + T) (R + 1)) sT (mdMeta0, [])
  have hw2 := metaWriteLine_timesrated (X + T) (R + 1) (divStr (X + T) (R + 1)) sR
    (dictSet mdMeta0 "total" (.str (pyLowerS (intStr (X + T)))),
     dictSet [] "total" (joinNL (.str (pyLowerS (intStr (X + T))))))
  have hw3 := metaWriteLine_rating (X + T) (R + 1) (divStr (X + T) (R + 1)) sX
    (dictSet (dictSet mdMeta0 "total" (.str (pyLowerS (intStr (X + T)))))
        "timesrated" (.str (pyLowerS (intStr (R + 1)))),
     dictSet (dictSet [] "total" (joinNL (.str (pyLowerS (intStr (X + T))))))
        "timesrated" (joinNL (.str (pyLowerS (intStr (R + 1))))))
  unfold process_meta
  rw [show (⟨("total: ").data ++ sT ++
        '\n' :: (("timesrated: ").data ++ sR ++ '\n' :: (("rating: ").data ++ sX))⟩ : String).data =
      ("total: ").data ++ sT ++
        '\n' :: (("timesrated: ").data ++ sR ++ '\n' :: (("rating: ").data ++ sX)) from rfl]
  rw [hsplit]
  simp only [List.foldlM_cons, List.foldlM_nil, hsc1, exceptBind_ok]
  simp only [hsc2, exceptBind_ok]
  simp only [hsc3, exceptBind_ok]
  simp only [show (pure (T, R + 1, X) : Except PyErr (Int × Int × Int)) =
      Except.ok (T, R + 1, X) from rfl, exceptBind_ok]
  rw [if_neg hR1]
  simp only [hw1, exceptBind_ok]
  simp only [hw2, exceptBind_ok]
  simp only [hw3, exceptBind_ok]
  simp [dictSet]
  rfl

/-- Witness for `C3_process_meta_amended` at the header
`total: 4 / timesrated: 1 / rating: 6` with empty initial renderer
metadata. -/
theorem C3_process_meta_amended_witness :
    process_meta "total: 4\ntimesrated: 1\nrating: 6" [] =
      .ok ([("total", .str "10"), ("timesrated", .str "2"), ("rating", .str "5.0")],
           [("total", "1\n0"), ("timesrated", "2"), ("rating", "5\n.\n0")]) := by
  have h := C3_process_meta_amended 4 1 6 ("4").data ("1").data ("6").data
    (by decide) (by decide) (by decide) (by decide) (by decide) (by decide) (by decide) []
  exact h

-- ### Lemmas and claims about the History store (C2)

theorem dictSetQ_length_fresh {l : List (ℚ × HistEntry)} {k : ℚ} (v : HistEntry)
    (h : k ∉ l.map Prod.fst) : (dictSetQ l k v).length = l.length + 1 := by
  induction l with
  | nil => rfl
  | cons p t ih =>
    obtain ⟨k2, v2⟩ := p
    have hk : k2 ≠ k := by
      intro hc
      exact h (by simp [hc])
    rw [dictSetQ, if_neg hk]
    have ht : k ∉ t.map Prod.fst := by
      intro hm
      exact h (by simp [hm])
    simp [ih ht]

theorem dictGetQ_dictSetQ_ne {l : List (ℚ × HistEntry)} {k k2 : ℚ} (v : HistEntry)
    (h : k2 ≠ k) : dictGetQ (dictSetQ l k v) k2 = dictGetQ l k2 := by
  induction l with
  | nil =>
    have hne : ¬ (k = k2) := fun hc => h hc.symm
    simp [dictSetQ, dictGetQ, hne]
  | cons p t ih =>
    obtain ⟨k3, v3⟩ := p
    by_cases hk : k3 = k
    · subst hk
      rw [dictSetQ, if_pos rfl, dictGetQ, dictGetQ]
      have : ¬ (k3 = k2) := fun hc => h (hc.symm)
      rw [if_neg this, if_neg this]
    · rw [dictSetQ, if_neg hk, dictGetQ]
      by_cases hk2 : k3 = k2
      · rw [if_pos hk2, dictGetQ, if_pos hk2]
      · rw [if_neg hk2, dictGetQ, if_neg hk2, ih]

theorem dictSetQ_keys_fresh {l : List (ℚ × HistEntry)} {k : ℚ} (v : HistEntry)
    (h : k ∉ l.map Prod.fst) :
    (dictSetQ l k v).map Prod.fst = l.map Prod.fst ++ [k] := by
  induction l with
  | nil => rfl
  | cons p t ih =>
    obtain ⟨k2, v2⟩ := p
    have hk : k2 ≠ k := by
      intro hc
      exact h (by simp [hc])
    rw [dictSetQ, if_neg hk]
    have ht : k ∉ t.map Prod.fst := by
      intro hm
      exact h (by simp [hm])
    simp [ih ht]

theorem historyFold_spec (saves : List (ℚ × String × String × String)) (h0 : History)
    (hnodup : (saves.map Prod.fst).Nodup)
    (hfresh : ∀ t ∈ saves.map Prod.fst, t ∉ h0.entries.map Prod.fst) :
    (saves.foldl historyStep h0).entries.length = h0.entries.length + saves.length ∧
    (∀ k, k ∈ h0.entries.map Prod.fst →
      dictGetQ (saves.foldl historyStep h0).entries k = dictGetQ h0.entries k) ∧
    (saves.foldl historyStep h0).entryKeys = h0.entryKeys := by
  induction saves generalizing h0 with
  | nil => simp
  | cons s rest ih =>
    have hs1 : s.1 ∉ h0.entries.map Prod.fst := hfresh s.1 (by simp)
    have hkeys : (historyStep h0 s).entries.map Prod.fst =
        h0.entries.map Prod.fst ++ [s.1] := by
      unfold historyStep historySave
      exact dictSetQ_keys_fresh _ hs1
    have hnodup2 : (rest.map Prod.fst).Nodup := by
      simp only [List.map_cons, List.nodup_cons] at hnodup
      exact hnodup.2
    have hs1rest : s.1 ∉ rest.map Prod.fst := by
      simp only [List.map_cons, List.nodup_cons] at hnodup
      exact hnodup.1
    have hfresh2 : ∀ t ∈ rest.map Prod.fst, t ∉ (historyStep h0 s).entries.map Prod.fst := by
      intro t ht
      rw [hkeys]
      intro hmem
      rcases List.mem_append.mp hmem with hm | hm
      · exact hfresh t (by simp [ht]) hm
      · simp only [List.mem_singleton] at hm
        exact hs1rest (hm ▸ ht)
    obtain ⟨ihlen, ihget, ihkeys⟩ := ih (historyStep h0 s) hnodup2 hfresh2
    refine ⟨?_, ?_, ?_⟩
    · rw [List.foldl_cons, ihlen]
      have : (historyStep h0 s).entries.length = h0.entries.length + 1 := by
        unfold historyStep historySave
        exact dictSetQ_length_fresh _ hs1
      rw [this]
      simp only [List.length_cons]
      omega
    · intro k hk
      have hkne : k ≠ s.1 := by
        intro hc
        exact hs1 (hc ▸ hk)
      rw [List.foldl_cons]
      have hk2 : k ∈ (historyStep h0 s).entries.map Prod.fst := by
        rw [hkeys]
        exact List.mem_append.mpr (Or.inl hk)
      rw [ihget k hk2]
      unfold historyStep historySave
      exact dictGetQ_dictSetQ_ne _ hkne
    · rw [List.foldl_cons, ihkeys]
      rfl

/--
**C2 (counterexample).**  The claim states that `entryKeys` returns all
timestamp keys of the current entry map sorted descending, including
entries appended by `save` calls made after construction.  In the code
`entryKeys` is computed only in `History.__init__` and never refreshed by
`save`: after one `save` on a history constructed from an empty file the
entry map has the one new key but `entryKeys` is still empty.
-/
theorem C2_history_counterexample :
    (historySave (historyLoad "hello" "h.json" []) 1 "alice" "v1" "d1").entries.map
        Prod.fst = [(1 : ℚ)] ∧
    (historySave (historyLoad "hello" "h.json" []) 1 "alice" "v1" "d1").entryKeys = [] ∧
    (historySave (historyLoad "hello" "h.json" []) 1 "alice" "v1" "d1").entryKeys ≠
      sortDesc ((historySave (historyLoad "hello" "h.json" []) 1 "alice" "v1" "d1").entries.map
        Prod.fst) := by
  refine ⟨by decide, by decide, by decide⟩

/--
**C2 (amended).**  The in-memory entry map is append-only: after `N`
`save` calls with pairwise-distinct timestamps not already present, the
entry map contains exactly `N` entries plus whatever was loaded at
construction, and no previously recorded entry (in particular no
`version` field) is rewritten or removed; however `entryKeys` is computed
at construction only — it returns the keys loaded at construction sorted
descending and does NOT include entries appended by later `save` calls.
-/
theorem C2_history_append_only_amended (url path : String)
    (es : List (ℚ × HistEntry)) (saves : List (ℚ × String × String × String))
    (hnodup : (saves.map Prod.fst).Nodup)
    (hfresh : ∀ t ∈ saves.map Prod.fst, t ∉ es.map Prod.fst) :
    (saves.foldl historyStep (historyLoad url path es)).entries.length =
      es.length + saves.length ∧
    (∀ k, k ∈ es.map Prod.fst →
      dictGetQ (saves.foldl historyStep (historyLoad url path es)).entries k =
        dictGetQ es k) ∧
    (saves.foldl historyStep (historyLoad url path es)).entryKeys =
      sortDesc (es.map Prod.fst) := by
  have h := historyFold_spec saves (historyLoad url path es) hnodup hfresh
  exact h

/-- Witness for `C2_history_append_only_amended`: one save on a history
loaded from an empty entry map. -/
theorem C2_history_append_only_amended_witness :
    ([((1 : ℚ), "alice", "v1", "d1")].foldl historyStep
        (historyLoad "hello" "h.json" [])).entries.length = 0 + 1 :=
  (C2_history_append_only_amended "hello" "h.json" [] [((1 : ℚ), "alice", "v1", "d1")]
    (by decide) (by intro t ht hm; simp at hm)).1

-- ### Lemmas and claims about the path mapping (C6)

theorem pyReplaceF_nil {fuel : Nat} {pat rep : List Char} (hne : pat ≠ []) :
    pyReplaceF fuel [] pat rep = [] := by
  cases fuel with
  | zero => rfl
  | succ fuel =>
    rw [pyReplaceF]
    have hnp : ¬ (pat.isPrefixOf ([] : List Char) ∧ pat ≠ []) := by
      intro hc
      exact hne (List.prefix_nil.mp (List.isPrefixOf_iff_prefix.mp hc.1))
    rw [if_neg hnp]

theorem pyReplaceF_append_pat {fuel : Nat} {pre pat rep : List Char}
    (hf : (pre ++ pat).length < fuel) (hne : pat ≠ [])
    (h : ∀ c, pat.head? = some c → c ∉ pre) :
    pyReplaceF fuel (pre ++ pat) pat rep = pre ++ rep := by
  induction fuel generalizing pre with
  | zero => omega
  | succ fuel ih =>
    cases hpre : pre with
    | nil =>
      subst hpre
      simp only [List.nil_append] at hf ⊢
      cases hpat : pat with
      | nil => exact absurd hpat hne
      | cons p pt =>
        subst hpat
        rw [pyReplaceF]
        have hcond : (p :: pt).isPrefixOf (p :: pt) ∧ (p :: pt) ≠ [] :=
          ⟨List.isPrefixOf_iff_prefix.mpr List.prefix_rfl, by simp⟩
        rw [if_pos hcond, List.drop_length, pyReplaceF_nil (by simp), List.append_nil]
    | cons c t =>
      subst hpre
      have hcne : ∀ d, pat.head? = some d → d ≠ c := by
        intro d hd hc
        exact h d hd (hc ▸ List.mem_cons_self c t)
      have hnp : ¬ (pat.isPrefixOf (c :: (t ++ pat)) ∧ pat ≠ []) := by
        intro hc
        cases hpat : pat with
        | nil => exact hne hpat
        | cons p pt =>
          rw [hpat] at hc
          simp only [List.isPrefixOf, Bool.and_eq_true, beq_iff_eq] at hc
          exact hcne p (by rw [hpat]; rfl) hc.1.1
      have hgoal : (c :: t) ++ pat = c :: (t ++ pat) := rfl
      rw [hgoal, pyReplaceF, if_neg hnp]
      have hlen : (t ++ pat).length < fuel := by
        simp only [List.length_append, List.length_cons] at hf ⊢
        omega
      have hht : ∀ d, pat.head? = some d → d ∉ t := by
        intro d hd hm
        exact h d hd (List.mem_cons_of_mem c hm)
      rw [ih hlen hht]
      rfl

theorem pyReplace_append_pat {pre pat rep : List Char} (hne : pat ≠ [])
    (h : ∀ c, pat.head? = some c → c ∉ pre) :
    pyReplace (pre ++ pat) pat rep = pre ++ rep :=
  pyReplaceF_append_pat (Nat.lt_succ_self _) hne h

/--
**C6 (counterexample).**  The claim states that for url `a/b` the history
file is `{root}/a/history/b.json` regardless of the platform path
separator.  The code derives the history path by string replacement of
`"\" + url + ".md"`: with the forward-slash separator the pattern never
occurs, so the history path equals the content path itself
(`wiki/a/b.md`); with the backslash separator the result is
`wiki/history/a/b.json` — in neither case `wiki/a/history/b.json`.
-/
theorem C6_history_path_counterexample :
    wikiPath '/' "wiki" "a/b" = "wiki/a/b.md" ∧
    pageHistoryPath (wikiPath '/' "wiki" "a/b") "a/b" = "wiki/a/b.md" ∧
    pageHistoryPath (wikiPath '/' "wiki" "a/b") "a/b" ≠ "wiki/a/history/b.json" ∧
    pageHistoryPath (wikiPath '\\' "wiki" "a/b") "a/b" = "wiki/history/a/b.json" ∧
    pageHistoryPath (wikiPath '\\' "wiki" "a/b") "a/b" ≠ "wiki/a/history/b.json" := by
  refine ⟨by decide, by decide, by decide, by decide, by decide⟩

/--
**C6 (amended).**  For every backslash-free root and url (url not starting
with a separator, root not ending in one), the content file is
`root + sep + url + ".md"` for the platform separator `sep`; the history
path is the content path with the first occurrence of `"\" + url + ".md"`
replaced by `"/history/" + url + ".json"` — hence
`{root}/history/{url}.json` when the separator is the backslash, and the
content path itself (no occurrence, no change) when the separator is the
forward slash.
-/
theorem C6_history_path_amended (root url : String) (hroot : root ≠ "")
    (hrbs : '\\' ∉ root.data) (hrsl : root.data.getLast? ≠ some '/')
    (hubs : '\\' ∉ url.data) (husl : url.data.head? ≠ some '/') :
    wikiPath '/' root url = root ++ "/" ++ url ++ ".md" ∧
    wikiPath '\\' root url = root ++ "\\" ++ url ++ ".md" ∧
    pageHistoryPath (root ++ "\\" ++ url ++ ".md") url =
      root ++ "/history/" ++ url ++ ".json" ∧
    pageHistoryPath (root ++ "/" ++ url ++ ".md") url = root ++ "/" ++ url ++ ".md" := by
  have hheadmd : ∀ c, (url ++ ".md").data.head? = some c → c ≠ '/' ∧ c ≠ '\\' := by
    intro c hc
    cases hu : url.data with
    | nil =>
      rw [String.data_append] at hc
      rw [hu] at hc
      simp only [List.nil_append] at hc
      have : c = '.' := by
        have : (".md" : String).data.head? = some '.' := rfl
        rw [this] at hc
        exact (Option.some.injEq _ _).mp hc.symm
      subst this
      exact ⟨by decide, by decide⟩
    | cons c0 t0 =>
      rw [String.data_append, hu] at hc
      simp only [List.cons_append, List.head?_cons, Option.some.injEq] at hc
      subst hc
      constructor
      · intro hc
        rw [hu, hc] at husl
        exact husl rfl
      · intro hc
        rw [hc] at hu
        exact hubs (by rw [hu]; exact List.mem_cons_self _ _)
  have hlastroot : ∀ c, root.data.getLast? = some c → c ≠ '/' ∧ c ≠ '\\' := by
    intro c hc
    constructor
    · intro h2
      exact hrsl (h2 ▸ hc)
    · intro h2
      exact hrbs (h2 ▸ List.mem_of_getLast?_eq_some hc)
  have hjoin : ∀ sep : Char, sep = '/' ∨ sep = '\\' →
      pyJoin sep root (url ++ ".md") = root ++ (⟨[sep]⟩ : String) ++ (url ++ ".md") := by
    intro sep hsep
    unfold pyJoin
    have h1 : ¬ ((url ++ ".md").data.head? = some '/' ∨
        (url ++ ".md").data.head? = some sep) := by
      intro hc
      rcases hc with hc | hc
      · exact (hheadmd '/' hc).1 rfl
      · rcases hsep with rfl | rfl
        · exact (hheadmd '/' hc).1 rfl
        · exact (hheadmd '\\' hc).2 rfl
    have h2 : ¬ (root.data.getLast? = some '/' ∨ root.data.getLast? = some sep) := by
      intro hc
      rcases hc with hc | hc
      · exact (hlastroot '/' hc).1 rfl
      · rcases hsep with rfl | rfl
        · exact (hlastroot '/' hc).1 rfl
        · exact (hlastroot '\\' hc).2 rfl
    rw [if_neg h1, if_neg hroot, if_neg h2]
  refine ⟨?_, ?_, ?_, ?_⟩
  · have h := hjoin '/' (Or.inl rfl)
    unfold wikiPath
    rw [h]
    apply String.ext
    simp [String.data_append]
  · have h := hjoin '\\' (Or.inr rfl)
    unfold wikiPath
    rw [h]
    apply String.ext
    simp [String.data_append]
  · unfold pageHistoryPath
    apply String.ext
    have hshape : (root ++ "\\" ++ url ++ ".md").data =
        root.data ++ (("\\" ++ url ++ ".md").data) := by
      simp [String.data_append]
    rw [hshape]
    have hpat : ∀ c, (("\\" ++ url ++ ".md").data).head? = some c → c ∉ root.data := by
      intro c hc
      have : c = '\\' := by
        rw [String.data_append, String.data_append] at hc
        simp only [List.cons_append, List.head?_cons, Option.some.injEq] at hc
        exact hc.symm
      subst this
      exact hrbs
    rw [pyReplace_append_pat (by simp) hpat]
    simp [String.data_append]
  · unfold pageHistoryPath
    apply String.ext
    have hnb : ∀ c, (("\\" ++ url ++ ".md").data).head? = some c →
        c ∉ (root ++ "/" ++ url ++ ".md").data := by
      intro c hc
      have hcc : c = '\\' := by
        rw [String.data_append, String.data_append] at hc
        simp only [List.cons_append, List.head?_cons, Option.some.injEq] at hc
        exact hc.symm
      subst hcc
      intro hm
      simp only [String.data_append, List.mem_append] at hm
      rcases hm with ((hm | hm) | hm) | hm
      · exact hrbs hm
      · revert hm; decide
      · exact hubs hm
      · revert hm; decide
    rw [pyReplace_of_not_mem _ _ (by simp) hnb]

/-- Witness for `C6_history_path_amended` at root `wiki`, url `hello`. -/
theorem C6_history_path_amended_witness :
    pageHistoryPath ("wiki" ++ "\\" ++ "hello" ++ ".md") "hello" =
      "wiki" ++ "/history/" ++ "hello" ++ ".json" :=
  (C6_history_path_amended "wiki" "hello" (by decide) (by decide) (by decide)
    (by decide) (by decide)).2.2.1

-- ### Lemmas and claims about delete (C7)

theorem dictGet_dictSet_ne {β : Type} (l : List (String × β)) (k k2 : String) (v : β)
    (h : k2 ≠ k) : dictGet (dictSet l k v) k2 = dictGet l k2 := by
  induction l with
  | nil =>
    have hne : ¬ (k = k2) := fun hc => h hc.symm
    simp [dictSet, dictGet, hne]
  | cons p t ih =>
    obtain ⟨k3, v3⟩ := p
    by_cases hk : k3 = k
    · have hne2 : ¬ (k3 = k2) := by
        intro hc
        rw [hc] at hk
        exact h hk
      rw [dictSet, if_pos hk, dictGet, if_neg hne2, dictGet, if_neg hne2]
    · rw [dictSet, if_neg hk, dictGet]
      by_cases hk2 : k3 = k2
      · rw [if_pos hk2, dictGet, if_pos hk2]
      · rw [if_neg hk2, dictGet, if_neg hk2, ih]

theorem fsGet_fsErase_self (fs : Fs) (p : String) : fsGet (fsErase fs p) p = none := by
  induction fs with
  | nil => rfl
  | cons e t ih =>
    obtain ⟨k, v⟩ := e
    by_cases hk : k = p
    · subst hk
      simp only [fsErase, List.filter, bne_self_eq_false]
      exact ih
    · simp only [fsErase, List.filter]
      rw [show (k != p) = true from bne_iff_ne.mpr hk]
      simp only [fsGet, dictGet, if_neg hk]
      exact ih

theorem fsGet_fsErase_ne (fs : Fs) (p q : String) (h : q ≠ p) :
    fsGet (fsErase fs p) q = fsGet fs q := by
  induction fs with
  | nil => rfl
  | cons e t ih =>
    obtain ⟨k, v⟩ := e
    by_cases hk : k = p
    · subst hk
      simp only [fsErase, List.filter, bne_self_eq_false]
      rw [show fsGet ((k, v) :: t) q = fsGet t q from by
        simp only [fsGet, dictGet]
        rw [if_neg (fun hc : k = q => h hc.symm)]]
      exact ih
    · simp only [fsErase, List.filter]
      rw [show (k != p) = true from bne_iff_ne.mpr hk]
      by_cases hkq : k = q
      · subst hkq
        simp [fsGet, dictGet]
      · simp only [fsGet, dictGet, if_neg hkq]
        exact ih

/--
**C7 (amended).**  `delete(url)` returns `False` and removes nothing when
no content file exists at `path(url)` (first conjunct).  When the content
file exists, `delete` first constructs the full page; provided the
history path differs from the content path, the history file (or the
empty object created for a missing one) parses as JSON, and the content
renders successfully, it removes both the content file and the history
file, returns `True`, and leaves every other file untouched (second
conjunct).  Without those provisos the page construction fails before any
removal — in particular with the forward-slash separator the history path
coincides with the content path, so the markdown content is fed to the
JSON parser (see the counterexample).
-/
theorem C7_delete_amended (env : RenderEnv) (sep : Char) (root : String) (fs : Fs) (url : String) :
    (fsGet fs (wikiPath sep root url) = none →
      wikiDelete env sep root fs url = .ok (false, fs)) ∧
    (∀ content es r,
      fsGet fs (wikiPath sep root url) = some content →
      pageHistoryPath (wikiPath sep root url) url ≠ wikiPath sep root url →
      jsonLoad (match fsGet fs (pageHistoryPath (wikiPath sep root url) url) with
        | some c => c
        | none => ("\x7b\x7d\n")) = some es →
      processModel env content = .ok r →
      ∃ fs2, wikiDelete env sep root fs url = .ok (true, fs2) ∧
        fsGet fs2 (wikiPath sep root url) = none ∧
        fsGet fs2 (pageHistoryPath (wikiPath sep root url) url) = none ∧
        ∀ q, q ≠ wikiPath sep root url →
          q ≠ pageHistoryPath (wikiPath sep root url) url →
          fsGet fs2 q = fsGet fs q) := by
  constructor
  · intro h
    simp only [wikiDelete, h]
  · intro content es r hcontent hne hjson hproc
    cases hh : fsGet fs (pageHistoryPath (wikiPath sep root url) url) with
    | some c =>
      rw [hh] at hjson
      refine ⟨fsErase (fsErase fs (pageHistoryPath (wikiPath sep root url) url))
        (wikiPath sep root url), ?_, ?_, ?_, ?_⟩
      · simp only [wikiDelete, hcontent, hh, hjson, hproc]
        rw [show fsGet (fsErase fs (pageHistoryPath (wikiPath sep root url) url))
            (wikiPath sep root url) = some content from by
          rw [fsGet_fsErase_ne _ _ _ (fun hc => hne hc.symm)]
          exact hcontent]
      · exact fsGet_fsErase_self _ _
      · rw [fsGet_fsErase_ne _ _ _ hne]
        exact fsGet_fsErase_self _ _
      · intro q hq1 hq2
        rw [fsGet_fsErase_ne _ _ _ hq1, fsGet_fsErase_ne _ _ _ hq2]
    | none =>
      rw [hh] at hjson
      refine ⟨fsErase (fsErase (fsSet fs (pageHistoryPath (wikiPath sep root url) url)
          ("\x7b\x7d\n")) (pageHistoryPath (wikiPath sep root url) url))
        (wikiPath sep root url), ?_, ?_, ?_, ?_⟩
      · simp only [wikiDelete, hcontent, hh, hjson, hproc]
        rw [show fsGet (fsSet fs (pageHistoryPath (wikiPath sep root url) url)
            ("\x7b\x7d\n")) (pageHistoryPath (wikiPath sep root url) url) =
            some ("\x7b\x7d\n") from dictGet_dictSet_self _ _ _]
        rw [show fsGet (fsErase (fsSet fs (pageHistoryPath (wikiPath sep root url) url)
            ("\x7b\x7d\n")) (pageHistoryPath (wikiPath sep root url) url))
            (wikiPath sep root url) = some content from by
          rw [fsGet_fsErase_ne _ _ _ (fun hc => hne hc.symm)]
          rw [show fsGet (fsSet fs (pageHistoryPath (wikiPath sep root url) url)
              ("\x7b\x7d\n")) (wikiPath sep root url) = fsGet fs (wikiPath sep root url) from
            dictGet_dictSet_ne _ _ _ _ (fun hc => hne hc.symm)]
          exact hcontent]
      · exact fsGet_fsErase_self _ _
      · rw [fsGet_fsErase_ne _ _ _ hne]
        exact fsGet_fsErase_self _ _
      · intro q hq1 hq2
        rw [fsGet_fsErase_ne _ _ _ hq1, fsGet_fsErase_ne _ _ _ hq2]
        exact dictGet_dictSet_ne _ _ _ _ hq2

/--
**C7 (counterexample).**  With the forward-slash path separator the
history path of `wiki/hello.md` equals the content path itself (see C6),
so `delete` feeds the page's markdown content to the JSON parser while
constructing the page and raises before removing anything — it neither
removes both files nor returns `True`.
-/
theorem C7_delete_counterexample :
    wikiDelete envDemo '/' "wiki" [("wiki/hello.md", "title: x\n\nbody")] "hello" =
      .error .jsonError := by decide

/-- Witness for `C7_delete_amended`: the absent case at an empty
filesystem, and the present case with the backslash separator at a
one-page filesystem without a history file. -/
theorem C7_delete_amended_witness :
    wikiDelete envDemo '\\' "wiki" ([] : Fs) "hello" = .ok (false, ([] : Fs)) ∧
    ∃ fs2, wikiDelete envDemo '\\' "wiki"
        [("wiki\\hello.md", "title: x\n\nbody")] "hello" = .ok (true, fs2) ∧
      fsGet fs2 (wikiPath '\\' "wiki" "hello") = none ∧
      fsGet fs2 (pageHistoryPath (wikiPath '\\' "wiki" "hello") "hello") = none ∧
      ∀ q, q ≠ wikiPath '\\' "wiki" "hello" →
        q ≠ pageHistoryPath (wikiPath '\\' "wiki" "hello") "hello" →
        fsGet fs2 q = fsGet [("wiki\\hello.md", "title: x\n\nbody")] q := by
  constructor
  · exact (C7_delete_amended envDemo '\\' "wiki" [] "hello").1 (by decide)
  · exact (C7_delete_amended envDemo '\\' "wiki"
      [("wiki\\hello.md", "title: x\n\nbody")] "hello").2
      "title: x\n\nbody" [] ("title: x\n\nbody", "body", [("title", "x")])
      (by decide) (by decide) (by decide) (by decide)

/-- Claim C10 (amended): for every page whose in-memory metadata mapping
is empty, whose CRLF-normalized body neither begins with a newline nor
contains a blank-line (`"\n\n"`) separator anywhere, and whose history
path differs from its content path, `save(user)` with `update = true`
writes the content file (a lone blank line followed by the body), writes
the history file with the new entry appended, and then fails with the
malformed-content (`ValueError`) split error during the reload step; the
content and history mutations persist although save itself fails. -/
theorem C10_page_save_amended (env : RenderEnv) (fs : Fs) (p : PageM)
    (user : String) (now : ℚ) (dateS : String)
    (hmeta : p.meta = [])
    (hstart : (crlf p.body).data.head? ≠ some '\n')
    (hnosep : ¬ ∃ x y, (crlf p.body).data = x ++ ['\n', '\n'] ++ y)
    (hdistinct : p.history.path ≠ p.path) :
    pageSave env fs p user now dateS true =
      (fsSet (fsSet fs p.path ("\n" ++ crlf p.body)) p.history.path
         (jsonDump (dictSetQ p.history.entries now ⟨user, dateS, crlf p.body⟩)),
       historySave p.history now user (crlf p.body) dateS,
       .error .valueError) := by
  have hsplit : split_raw ("\n" ++ crlf p.body) = none := by
    unfold split_raw
    have hnone : splitOnceL ['\n', '\n'] (("\n" ++ crlf p.body).data) = none := by
      cases hs : splitOnceL ['\n', '\n'] (("\n" ++ crlf p.body).data) with
      | none => rfl
      | some pr =>
        exfalso
        have hisSome : (splitOnceL ['\n', '\n'] (("\n" ++ crlf p.body).data)).isSome := by
          rw [hs]; rfl
        rcases (splitOnceL_isSome_iff (by simp) _).mp hisSome with ⟨x, y, hxy⟩
        rw [String.data_append] at hxy
        cases x with
        | nil =>
          simp only [List.nil_append, List.cons_append, List.singleton_append,
            List.cons.injEq, true_and] at hxy
          apply hstart
          rw [hxy]
          rfl
        | cons c t =>
          have hdata : ("\n" : String).data = ['\n'] := rfl
          rw [hdata] at hxy
          simp only [List.cons_append, List.singleton_append, List.cons.injEq] at hxy
          exact hnosep ⟨t, y, hxy.2⟩
    rw [hnone]
    rfl
  have hfile : metaLinesStr p.meta ++ "\n" ++ crlf p.body = "\n" ++ crlf p.body := by
    rw [hmeta]
    rfl
  have hget : fsGet (fsSet (fsSet fs p.path ("\n" ++ crlf p.body)) p.history.path
      (jsonDump (historySave p.history now user (crlf p.body) dateS).entries)) p.path =
      some ("\n" ++ crlf p.body) := by
    rw [show fsGet (fsSet (fsSet fs p.path ("\n" ++ crlf p.body)) p.history.path
        (jsonDump (historySave p.history now user (crlf p.body) dateS).entries)) p.path =
        fsGet (fsSet fs p.path ("\n" ++ crlf p.body)) p.path from
      dictGet_dictSet_ne _ _ _ _ (fun hc => hdistinct hc.symm)]
    exact dictGet_dictSet_self _ _ _
  have hproc : processModel env ("\n" ++ crlf p.body) = .error .valueError := by
    simp only [processModel, hsplit]
  unfold pageSave
  rw [hfile]
  simp only [if_true, hget, hproc]
  rfl

/-- Claim C10: the counterexample.  For the page with empty metadata and
body `"a\n\nb"` (which does not begin with a newline), `save` with
`update = true` does not raise the malformed-content/split error the claim
predicts: the file just written (`"\na\n\nb"`) does contain a blank-line
separator, the split succeeds, and the reload instead fails later with a
`KeyError` while reading the reserved rating keys from the parsed header. -/
theorem C10_page_save_counterexample :
    (pageSave envDemo [] ⟨"wiki\\x.md", "x", [], "a\n\nb",
        historyLoad "x" "wiki/history/x.json" []⟩ "u" 1 "d" true).2.2 =
      Except.error PyErr.keyError ∧
    splitOnceL ['\n', '\n'] ("\n" ++ crlf "a\n\nb").data ≠ none := by
  exact ⟨by decide, by decide⟩

/-- Witness for `C10_page_save_amended` at a concrete input: saving the
page `"x"` with empty metadata and body `"hello"` writes the content file
`"\nhello"`, writes the history file with the appended entry, and returns
the malformed-content error — the mutations persist although save fails. -/
theorem C10_page_save_amended_witness :
    pageSave envDemo [] ⟨"wiki\\x.md", "x", [], "hello",
        historyLoad "x" "wiki/history/x.json" []⟩ "u" 1 "d" true =
      ([("wiki\\x.md", "\nhello"),
        ("wiki/history/x.json", jsonDump [(1, ⟨"u", "d", "hello"⟩)])],
       historySave (historyLoad "x" "wiki/history/x.json" []) 1 "u" "hello" "d",
       Except.error PyErr.valueError) := by
  have hno : ¬ ∃ x y, (crlf "hello").data = x ++ ['\n', '\n'] ++ y := by
    rintro ⟨x, y, h⟩
    have hm : '\n' ∈ (crlf "hello").data := by
      rw [h]
      simp
    revert hm
    decide
  have happ := C10_page_save_amended envDemo [] ⟨"wiki\\x.md", "x", [], "hello",
      historyLoad "x" "wiki/history/x.json" []⟩ "u" 1 "d" rfl (by decide) hno (by decide)
  rw [happ]
  decide

/-- Claim C1: the counterexample.  With root `"/wiki"`, moving page `"x"`
to `"../wiki2/x"` yields the target path `"/wiki/../wiki2/x.md"`, which
normalizes to `"/wiki2/x.md"` — outside the content root (it is not the
root and does not live under `"/wiki/"`), merely sharing `"/wiki"` as a
string prefix.  The claim requires this move to be rejected with no
mutation, but `move` accepts it and renames the file. -/
theorem C1_move_counterexample :
    normpath ("/wiki/../wiki2/x.md") = "/wiki2/x.md" ∧
    ¬ List.isPrefixOf ("/wiki/").data (normpath "/wiki/../wiki2/x.md").data ∧
    normpath ("/wiki/../wiki2/x.md") ≠ "/wiki" ∧
    wikiMove [("/wiki/x.md", "c")] "/wiki" "x" "../wiki2/x" =
      Except.ok [("/wiki/../wiki2/x.md", "c")] := by
  refine ⟨by decide, by decide, by decide, by decide⟩

/-- Claim C1 (amended): the escape check `move` actually performs is a
longest-common-string-prefix comparison, not path containment: whenever
the common string prefix of the normalized root and the normalized target
path is shorter than the normalized root, `move(url, newurl)` fails with
the `RuntimeError` naming `newurl` and performs no filesystem mutation;
targets that normalize outside the root while sharing it as a string
prefix (such as `/wiki2/x` under root `/wiki`) are not rejected. -/
theorem C1_move_amended (fs : Fs) (root url newurl : String)
    (h : (commonPfx (normpath root).data
           (normpath (pyJoin '/' root newurl ++ ".md")).data).length <
         (normpath root).data.length) :
    wikiMove fs root url newurl =
      Except.error (PyErr.runtimeError
        ("Possible write attempt outside content directory: " ++ newurl)) := by
  unfold wikiMove
  rw [if_pos h]

/-- Witness for `C1_move_amended`: the spec's own example — root
`"/wiki"`, target url `"../../etc/passwd"` — normalizes to
`"/etc/passwd.md"`, whose common string prefix with the root is `"/"`;
the move is rejected with the path-escape error. -/
theorem C1_move_amended_witness :
    wikiMove [("/wiki/x.md", "c")] "/wiki" "x" "../../etc/passwd" =
      Except.error (PyErr.runtimeError
        ("Possible write attempt outside content directory: ../../etc/passwd")) :=
  C1_move_amended [("/wiki/x.md", "c")] "/wiki" "x" "../../etc/passwd" (by decide)

/-- Claim C9: the grouping never happens.  `index_by` stores
`pre.append(page)` — which is Python `None` — under every key, so with a
single page of title `"T"` the result maps `"T"` to `None` instead of to
`[page]`, and with two pages sharing the title the second iteration calls
`.append` on the stored `None` and raises `AttributeError`.  This
contradicts both the claim and the function's own docstring. -/
theorem C9_index_by_code_bug :
    index_by [⟨"hello", "T"⟩] (fun p => p.title) =
      Except.ok [("T", (none : Option (List PageRec)))] ∧
    index_by [⟨"a", "T"⟩, ⟨"b", "T"⟩] (fun p => p.title) =
      Except.error PyErr.attributeError :=
  ⟨by decide, by decide⟩
